import Mathlib

/-!
Verification of the gwaylib/errors error-recorder library.

The library (package `errors`, single file) stores an error as
`errImpl{data : ErrData}` with `ErrData = []interface{}`: element 0 is the
code string and every later element is one annotation entry, itself an
`ErrData` whose element 0 is a call-site descriptor string followed by the
caller-supplied context arguments.  The operations modelled here are `New`,
`As`/`Wrap` (free function and method), `Parse`, `ParseError`, `Code`,
`Error` (JSON rendering with a `fmt.Sprintf` fallback), `Equal`/`Is` and the
package-private `equal` and `parse`.

Modelling conventions:
* Go `interface{}` context values are modelled by `GoVal`.  Numeric values
  keep their rendered decimal form (`GoVal.num lit`), matching both what
  `encoding/json` emits for them and what `fmt` prints; values that
  `encoding/json` cannot marshal (func, chan, NaN/Inf floats, cyclic data)
  are `GoVal.badVal render` where `render` is their `fmt %+v` text.
* `caller(2)` reads the runtime call stack, which is outside the data model;
  every operation that records a call site therefore takes the descriptor
  string as an explicit parameter, universally quantified in the theorems.
* Go pointer identity is modelled by giving each record an allocation
  identifier `id`; `&errImpl{...}` always allocates, so operations that
  allocate take the fresh identifier as a parameter.
* A `none` result of `goCode`, `goEqual` or the outer layer of `goAs`
  models a Go runtime panic (out-of-range index, failed type assertion or
  nil-pointer dereference); a `none` of `goParse`/`goParseError` models the
  Go `nil` error those functions genuinely return.
* `encoding/json` and `fmt` are Go standard library; they are modelled
  here (compact JSON encoder, strict JSON decoder, `%+v` rendering) for the
  fragment of inputs the library can produce or receive.  Two knowingly
  unexercised approximations, each marked at its definition: map keys are
  kept in decode order rather than re-sorted on encode, and numbers are
  validated lexically without the float64 range check.
-/

/-- Model of a Go `interface{}` value as stored in `ErrData`.  `num` keeps
the decimal rendering of the numeric value (what both `encoding/json` and
`fmt` print for it); `badVal` is a value `encoding/json` rejects (func,
chan, NaN/Inf float, cyclic data), carrying its `fmt %+v` rendering. -/
inductive GoVal where
  | str (s : String)
  | num (lit : String)
  | bool (b : Bool)
  | null
  | arr (xs : List GoVal)
  | obj (kvs : List (String × GoVal))
  | badVal (render : String)
deriving Repr

mutual

def govalBeq : GoVal → GoVal → Bool
  | .str a, .str b => a == b
  | .num a, .num b => a == b
  | .bool a, .bool b => a == b
  | .null, .null => true
  | .arr xs, .arr ys => govalBeqL xs ys
  | .obj xs, .obj ys => govalBeqKV xs ys
  | .badVal a, .badVal b => a == b
  | _, _ => false

def govalBeqL : List GoVal → List GoVal → Bool
  | [], [] => true
  | x :: xs, y :: ys => govalBeq x y && govalBeqL xs ys
  | _, _ => false

def govalBeqKV : List (String × GoVal) → List (String × GoVal) → Bool
  | [], [] => true
  | (k, v) :: xs, (l, w) :: ys => k == l && govalBeq v w && govalBeqKV xs ys
  | _, _ => false

end

mutual

theorem govalBeq_iff : ∀ a b : GoVal, govalBeq a b = true ↔ a = b
  | .str a, b => by cases b <;> simp [govalBeq]
  | .num a, b => by cases b <;> simp [govalBeq]
  | .bool a, b => by cases b <;> simp [govalBeq]
  | .null, b => by cases b <;> simp [govalBeq]
  | .arr xs, b => by cases b <;> simp [govalBeq, govalBeqL_iff xs]
  | .obj xs, b => by cases b <;> simp [govalBeq, govalBeqKV_iff xs]
  | .badVal a, b => by cases b <;> simp [govalBeq]

theorem govalBeqL_iff : ∀ xs ys : List GoVal, govalBeqL xs ys = true ↔ xs = ys
  | [], ys => by cases ys <;> simp [govalBeqL]
  | x :: xs, ys => by
    cases ys with
    | nil => simp [govalBeqL]
    | cons y ys => simp [govalBeqL, govalBeq_iff x y, govalBeqL_iff xs ys]

theorem govalBeqKV_iff : ∀ xs ys : List (String × GoVal), govalBeqKV xs ys = true ↔ xs = ys
  | [], ys => by cases ys <;> simp [govalBeqKV]
  | (k, v) :: xs, ys => by
    cases ys with
    | nil => simp [govalBeqKV]
    | cons y ys =>
      obtain ⟨l, w⟩ := y
      simp [govalBeqKV, govalBeq_iff v w, govalBeqKV_iff xs ys, and_assoc]

end

instance : DecidableEq GoVal := fun a b =>
  decidable_of_iff (govalBeq a b = true) (govalBeq_iff a b)

/-! ## `fmt.Sprintf` with verb `%+v` (Go `fmt` package)

Used by `errImpl.Error` as the fallback rendering when `json.Marshal`
fails.  `fmt` prints a `[]interface{}` as `[` elements `]` joined by single
spaces, a string verbatim without quotes, a bool as `true`/`false`, an
untyped nil as `<nil>`, a number as its decimal rendering, a func or
channel as its hex address (carried in `badVal`), and a map as
`map[` key:value pairs `]`.  (Go sorts map keys when printing; maps only
arise in records decoded from object-bearing JSON, which no modelled
operation re-renders, so the stored order is kept here.) -/

mutual

def sprintfV : GoVal → List Char
  | .str s => s.data
  | .num lit => lit.data
  | .bool b => if b then "true".data else "false".data
  | .null => "<nil>".data
  | .arr xs => '[' :: sprintfVL xs ++ [']']
  | .obj kvs => 'm' :: 'a' :: 'p' :: '[' :: sprintfVKV kvs ++ [']']
  | .badVal render => render.data

def sprintfVL : List GoVal → List Char
  | [] => []
  | [v] => sprintfV v
  | v :: vs => sprintfV v ++ ' ' :: sprintfVL vs

def sprintfVKV : List (String × GoVal) → List Char
  | [] => []
  | [(k, v)] => k.data ++ ':' :: sprintfV v
  | (k, v) :: kvs => k.data ++ ':' :: sprintfV v ++ ' ' :: sprintfVKV kvs

end

/-! ## `encoding/json` encoder (`json.Marshal`)

Compact output.  Strings are quoted with the encoder's escape set:
`"` and `\` get a backslash escape, `\n` `\r` `\t` their short escapes,
all other control characters below 0x20 become `\u00xx` (lowercase hex),
the HTML-sensitive `<` `>` `&` become their `\u00xx` escapes
(`json.Marshal` escapes HTML by default), and U+2028/U+2029 become
`\u2028`/`\u2029`.  Marshalling fails (returns `none`) exactly on values
`encoding/json` rejects, modelled by `badVal`. -/

def hexDigitChar (n : Nat) : Char :=
  if n < 10 then Char.ofNat ('0'.toNat + n) else Char.ofNat ('a'.toNat + n - 10)

def escapeChar (c : Char) : List Char :=
  if c = '"' then ['\\', '"']
  else if c = '\\' then ['\\', '\\']
  else if c = '\n' then ['\\', 'n']
  else if c = '\r' then ['\\', 'r']
  else if c = '\t' then ['\\', 't']
  else if c.toNat < 32 then
    ['\\', 'u', '0', '0', hexDigitChar (c.toNat / 16), hexDigitChar (c.toNat % 16)]
  else if c = '<' then ['\\', 'u', '0', '0', '3', 'c']
  else if c = '>' then ['\\', 'u', '0', '0', '3', 'e']
  else if c = '&' then ['\\', 'u', '0', '0', '2', '6']
  else if c.toNat = 0x2028 then ['\\', 'u', '2', '0', '2', '8']
  else if c.toNat = 0x2029 then ['\\', 'u', '2', '0', '2', '9']
  else [c]

def quoteStr (s : String) : List Char :=
  '"' :: (s.data.flatMap escapeChar) ++ ['"']

mutual

def marshalV : GoVal → Option (List Char)
  | .str s => some (quoteStr s)
  | .num lit => some lit.data
  | .bool b => some (if b then "true".data else "false".data)
  | .null => some "null".data
  | .arr xs => (marshalVL xs).map (fun cs => '[' :: cs ++ [']'])
  | .obj kvs => (marshalVKV kvs).map (fun cs => '{' :: cs ++ ['}'])
  | .badVal _ => none

def marshalVL : List GoVal → Option (List Char)
  | [] => some []
  | [v] => marshalV v
  | v :: vs => do
    let c ← marshalV v
    let cs ← marshalVL vs
    pure (c ++ ',' :: cs)

def marshalVKV : List (String × GoVal) → Option (List Char)
  | [] => some []
  | [(k, v)] => (marshalV v).map (fun c => quoteStr k ++ ':' :: c)
  | (k, v) :: kvs => do
    let c ← marshalV v
    let cs ← marshalVKV kvs
    pure (quoteStr k ++ ':' :: c ++ ',' :: cs)

end

/-- `json.Marshal` of a non-nil `ErrData` slice (a JSON array). -/
def marshalData (data : List GoVal) : Option (List Char) :=
  (marshalVL data).map (fun cs => '[' :: cs ++ [']'])

/-! ## `encoding/json` decoder (`json.Unmarshal` into `*ErrData`)

Strict JSON: the scanner rejects raw control characters and malformed
escapes in strings, leading zeros and bare dots in numbers, and trailing
non-whitespace after the top-level value.  Decoding into `[]interface{}`
additionally requires the top-level value to be an array.  Go decodes a
`\uXXXX` high/low surrogate pair to one character and a lone surrogate to
U+FFFD.  Numbers are validated lexically and kept as their lexeme
(`GoVal.num`); Go parses them to `float64` and would reject a lexically
valid but out-of-range literal such as `1e400`, a numeric edge no modelled
operation reaches.  The recursion over nested arrays/objects is driven by
a fuel argument; `2·length + 2` fuel is ample because every two recursive
steps consume at least one input character. -/

def isWsChar (c : Char) : Bool :=
  c = ' ' ∨ c = '\t' ∨ c = '\n' ∨ c = '\r'

def skipWs : List Char → List Char
  | [] => []
  | c :: cs => if isWsChar c then skipWs cs else c :: cs

def hexVal (c : Char) : Option Nat :=
  if '0' ≤ c ∧ c ≤ '9' then some (c.toNat - '0'.toNat)
  else if 'a' ≤ c ∧ c ≤ 'f' then some (c.toNat - 'a'.toNat + 10)
  else if 'A' ≤ c ∧ c ≤ 'F' then some (c.toNat - 'A'.toNat + 10)
  else none

/-- First pass of JSON string decoding: strip escapes to raw code points,
keeping `\\uXXXX` surrogate values numeric so the pairing pass can combine
them.  Rejects raw control characters and malformed escapes, as Go's
scanner does.  Returns the code points and the input after the closing
quote. -/
def lexStrRaw : List Char → Option (List Nat × List Char)
  | [] => none
  | c :: rest =>
    if c = '"' then some ([], rest)
    else if c = '\\' then
      match rest with
      | [] => none
      | e :: rest2 =>
        if e = '"' then (lexStrRaw rest2).map (fun p => ('"'.toNat :: p.1, p.2))
        else if e = '\\' then (lexStrRaw rest2).map (fun p => ('\\'.toNat :: p.1, p.2))
        else if e = '/' then (lexStrRaw rest2).map (fun p => ('/'.toNat :: p.1, p.2))
        else if e = 'b' then (lexStrRaw rest2).map (fun p => (8 :: p.1, p.2))
        else if e = 'f' then (lexStrRaw rest2).map (fun p => (12 :: p.1, p.2))
        else if e = 'n' then (lexStrRaw rest2).map (fun p => (10 :: p.1, p.2))
        else if e = 'r' then (lexStrRaw rest2).map (fun p => (13 :: p.1, p.2))
        else if e = 't' then (lexStrRaw rest2).map (fun p => (9 :: p.1, p.2))
        else if e = 'u' then
          match rest2 with
          | a :: b :: c2 :: d :: rest3 =>
            match hexVal a, hexVal b, hexVal c2, hexVal d with
            | some ha, some hb, some hc, some hd =>
              (lexStrRaw rest3).map (fun p =>
                ((((ha * 16 + hb) * 16 + hc) * 16 + hd) :: p.1, p.2))
            | _, _, _, _ => none
          | _ => none
        else none
    else if c.toNat < 32 then none
    else (lexStrRaw rest).map (fun p => (c.toNat :: p.1, p.2))

/-- An unpaired surrogate value decodes to U+FFFD (Go's replacement), any
other code point to its character. -/
def decodeCp (n : Nat) : Char :=
  if 0xD800 ≤ n ∧ n ≤ 0xDFFF then Char.ofNat 0xFFFD else Char.ofNat n

/-- Second pass: an adjacent high/low surrogate pair of `\\uXXXX` values
combines into one character, exactly as Go's decoder pairs them; anything
unpaired becomes U+FFFD.  A literal character is never a surrogate, so
running this over the whole code-point stream is equivalent to Go pairing
only adjacent escapes. -/
def combineSur : List Nat → List Char
  | [] => []
  | [n] => [decodeCp n]
  | n :: m :: rest =>
    if (0xD800 ≤ n ∧ n ≤ 0xDBFF) ∧ (0xDC00 ≤ m ∧ m ≤ 0xDFFF) then
      Char.ofNat (0x10000 + (n - 0xD800) * 0x400 + (m - 0xDC00)) :: combineSur rest
    else decodeCp n :: combineSur (m :: rest)

/-- Decode the body of a JSON string after its opening quote; returns the
decoded characters and the input after the closing quote. -/
def parseStrBody (l : List Char) : Option (List Char × List Char) :=
  (lexStrRaw l).map (fun p => (combineSur p.1, p.2))


def lexDigits : List Char → List Char × List Char
  | [] => ([], [])
  | c :: cs =>
    if c.isDigit then
      let p := lexDigits cs
      (c :: p.1, p.2)
    else ([], c :: cs)

/-- JSON integer part: `0` or a nonzero digit followed by digits. -/
def lexInt : List Char → Option (List Char × List Char)
  | [] => none
  | c :: cs =>
    if c = '0' then some (['0'], cs)
    else if c.isDigit then
      let p := lexDigits cs
      some (c :: p.1, p.2)
    else none

/-- Optional JSON fraction part: `.` followed by one or more digits. -/
def lexFrac : List Char → Option (List Char × List Char)
  | [] => some ([], [])
  | c :: cs =>
    if c = '.' then
      match cs with
      | [] => none
      | d :: cs2 =>
        if d.isDigit then
          let p := lexDigits cs2
          some ('.' :: d :: p.1, p.2)
        else none
    else some ([], c :: cs)

/-- Optional JSON exponent part: `e`/`E`, optional sign, one or more digits. -/
def lexExp : List Char → Option (List Char × List Char)
  | [] => some ([], [])
  | c :: cs =>
    if c = 'e' ∨ c = 'E' then
      match cs with
      | [] => none
      | s :: cs2 =>
        if s = '+' ∨ s = '-' then
          match cs2 with
          | [] => none
          | d :: cs3 =>
            if d.isDigit then
              let p := lexDigits cs3
              some (c :: s :: d :: p.1, p.2)
            else none
        else if s.isDigit then
          let p := lexDigits cs2
          some (c :: s :: p.1, p.2)
        else none
    else some ([], c :: cs)

/-- Lex one JSON number, returning its lexeme and the rest of the input. -/
def lexNum (input : List Char) : Option (List Char × List Char) := do
  let sgn : List Char := if input.head? = some '-' then ['-'] else []
  let r0 := if input.head? = some '-' then input.tail else input
  let (ip, r1) ← lexInt r0
  let (fp, r2) ← lexFrac r1
  let (ep, r3) ← lexExp r2
  pure (sgn ++ ip ++ fp ++ ep, r3)

mutual

def parseVal : Nat → List Char → Option (GoVal × List Char)
  | 0, _ => none
  | fuel + 1, input =>
    match skipWs input with
    | [] => none
    | c :: rest =>
      if c = '"' then (parseStrBody rest).map (fun p => (GoVal.str (String.mk p.1), p.2))
      else if c = '[' then
        match skipWs rest with
        | [] => none
        | c2 :: rest2 =>
          if c2 = ']' then some (GoVal.arr [], rest2)
          else (parseArrRest fuel (c2 :: rest2)).map (fun p => (GoVal.arr p.1, p.2))
      else if c = '{' then
        match skipWs rest with
        | [] => none
        | c2 :: rest2 =>
          if c2 = '}' then some (GoVal.obj [], rest2)
          else (parseObjRest fuel (c2 :: rest2)).map (fun p => (GoVal.obj p.1, p.2))
      else if c = 't' then
        match rest with
        | 'r' :: 'u' :: 'e' :: rest2 => some (GoVal.bool true, rest2)
        | _ => none
      else if c = 'f' then
        match rest with
        | 'a' :: 'l' :: 's' :: 'e' :: rest2 => some (GoVal.bool false, rest2)
        | _ => none
      else if c = 'n' then
        match rest with
        | 'u' :: 'l' :: 'l' :: rest2 => some (GoVal.null, rest2)
        | _ => none
      else if c = '-' ∨ c.isDigit then
        (lexNum (c :: rest)).map (fun p => (GoVal.num (String.mk p.1), p.2))
      else none

def parseArrRest : Nat → List Char → Option (List GoVal × List Char)
  | 0, _ => none
  | fuel + 1, input => do
    let (v, r1) ← parseVal fuel input
    match skipWs r1 with
    | ',' :: r2 => do
      let (vs, r3) ← parseArrRest fuel r2
      pure (v :: vs, r3)
    | ']' :: r2 => pure ([v], r2)
    | _ => none

def parseObjRest : Nat → List Char → Option (List (String × GoVal) × List Char)
  | 0, _ => none
  | fuel + 1, input =>
    match skipWs input with
    | '"' :: r0 => do
      let (k, r1) ← parseStrBody r0
      match skipWs r1 with
      | ':' :: r2 => do
        let (v, r3) ← parseVal fuel r2
        match skipWs r3 with
        | ',' :: r4 => do
          let (kvs, r5) ← parseObjRest fuel r4
          pure ((String.mk k, v) :: kvs, r5)
        | '}' :: r4 => pure ([(String.mk k, v)], r4)
        | _ => none
      | _ => none
    | _ => none

end

/-- `json.Unmarshal(src, &data)` with `data : ErrData`: the whole input
must be one JSON value (plus whitespace) and the value must be an array. -/
def unmarshalData (src : List Char) : Option (List GoVal) := do
  let (v, rest) ← parseVal (2 * src.length + 2) src
  match skipWs rest with
  | [] =>
    match v with
    | GoVal.arr xs => some xs
    | _ => none
  | _ => none

/-! ## The error-record operations (part_003 of the source)

`ErrImpl` is `*errImpl`: `id` models the pointer identity of the `&errImpl`
allocation, `data` the `ErrData` contents.  `GoError` is the universe of
dynamic `error` values the claims range over: records of this package and
plain foreign errors (as built by the standard `errors.New`), which carry
only a message and have no `Unwrap`/`Is` methods.  A Go `nil` error is
`Option.none` one level up. -/

structure ErrImpl where
  id : Nat
  data : List GoVal
deriving DecidableEq, Repr

structure ForeignErr where
  id : Nat
  msg : String
deriving DecidableEq, Repr

inductive GoError where
  | record (e : ErrImpl)
  | foreign (f : ForeignErr)
deriving DecidableEq, Repr

/-- `New` (line 107): `&errImpl{append(ErrData{code}, ErrData{caller(2)})}`. -/
def goNew (id : Nat) (caller : String) (code : String) : ErrImpl :=
  ⟨id, [GoVal.str code, GoVal.arr [GoVal.str caller]]⟩

/-- Annotation entry construction plus outer append, shared by `errImpl.As`
(line 217) and the free `As` (line 133): `as := ErrData{caller(2)}`, then
`as = append(as, reason...)` when reasons are present (a no-op on values
when `reason` is empty), then `append(e.data, as)`. -/
def goAsData (data : List GoVal) (caller : String) (reason : List GoVal) : List GoVal :=
  data ++ [GoVal.arr (GoVal.str caller :: reason)]

/-- `errImpl.As` (line 217): a freshly allocated record with one more entry. -/
def errImplAs (e : ErrImpl) (id : Nat) (caller : String) (reason : List GoVal) : ErrImpl :=
  ⟨id, goAsData e.data caller reason⟩

/-- `errImpl.Code` (line 198): `e.data[0].(string)`.  `none` models the
panic when `data` is empty (index out of range) or element 0 is not a
string (failed type assertion). -/
def goCode (e : ErrImpl) : Option String :=
  match e.data with
  | GoVal.str s :: _ => some s
  | _ => none

/-- `errImpl.Error` (line 203): `json.Marshal(e.data)`, falling back to
`fmt.Sprintf` with verb `%+v` when marshalling fails. -/
def goErrorText (e : ErrImpl) : String :=
  match marshalData e.data with
  | some cs => String.mk cs
  | none => String.mk (sprintfV (GoVal.arr e.data))

/-- package-private `parse` (line 154): empty → nil; text not starting
with `[` → `New(src)`; structured decode failure → `New(src)`; otherwise
the decoded data verbatim.  `id` is the identity of the record allocated
on the taken branch, `caller` the descriptor `New` would record. -/
def goParseRaw (id : Nat) (caller : String) (src : String) : Option ErrImpl :=
  match src.data with
  | [] => none
  | c :: _ =>
    if c ≠ '[' then some (goNew id caller src)
    else
      match unmarshalData src.data with
      | none => some (goNew id caller src)
      | some data => some ⟨id, data⟩

/-- `Parse` (line 112): empty source → nil, otherwise `parse`. -/
def goParse (id : Nat) (caller : String) (src : String) : Option ErrImpl :=
  if src.data = [] then none else goParseRaw id caller src

/-- `ParseError` (line 121): nil → nil; a record of this package is
returned identically (same allocation); anything else is `parse` of its
rendered text. -/
def goParseError (id : Nat) (caller : String) : Option GoError → Option ErrImpl
  | none => none
  | some (GoError.record e) => some e
  | some (GoError.foreign f) => goParseRaw id caller f.msg

/-- free `As` (line 133).  The outer `none` models the panic that occurs
when `ParseError(err)` produces a nil `*errImpl` (its `data` field is then
dereferenced); `some none` is the nil returned for nil input.  `idP` is the
identity `ParseError` would allocate, `idA` the one of the new record,
`callerA` the descriptor recorded in the new entry (`caller(2)` from `As`),
`callerP` the one `parse` would hand to `New`. -/
def goAs (idP idA : Nat) (callerA callerP : String) (err : Option GoError)
    (reason : List GoVal) : Option (Option ErrImpl) :=
  match err with
  | none => some none
  | some e =>
    match goParseError idP callerP (some e) with
    | none => none
    | some r => some (some (errImplAs r idA callerA reason))

/-- `Wrap` (line 150): delegates to `As`. -/
def goWrap (idP idA : Nat) (callerA callerP : String) (err : Option GoError)
    (reason : List GoVal) : Option (Option ErrImpl) :=
  goAs idP idA callerA callerP err reason

/-- Standard-library `errors.Is` restricted to this universe: neither
`*errImpl` nor a plain foreign error has an `Unwrap` or `Is` method, so the
unwrap loop degenerates to a single interface comparison. -/
def goStdIs (e1 e2 : GoError) : Bool :=
  decide (e1 = e2)

/-- package-private `equal` (line 84): interface identity, then the nil
check, then `errors.Is`, then code comparison through `ParseError`.  `none`
models the panic when either `ParseError` result is a nil `*errImpl` (the
`Code()` call then dereferences nil) or a `Code()` call itself panics. -/
def goEqual (id1 id2 : Nat) (cal1 cal2 : String)
    (err1 err2 : Option GoError) : Option Bool :=
  if err1 = err2 then some true
  else
    match err1, err2 with
    | some e1, some e2 =>
      if goStdIs e1 e2 then some true
      else
        match goParseError id1 cal1 (some e1), goParseError id2 cal2 (some e2) with
        | some r1, some r2 =>
          match goCode r1, goCode r2 with
          | some c1, some c2 => some (decide (c1 = c2))
          | _, _ => none
        | _, _ => none
    | _, _ => some false

/-- `errImpl.Equal` (line 229): `equal(e, l)`. -/
def errImplEqual (id1 id2 : Nat) (cal1 cal2 : String) (e : ErrImpl)
    (l : Option GoError) : Option Bool :=
  goEqual id1 id2 cal1 cal2 (some (GoError.record e)) l

/-- The annotation trail of a record: everything after the code slot. -/
def goTrail (e : ErrImpl) : List GoVal :=
  e.data.drop 1

/-- A record built by `New` followed by a finite sequence of annotations;
each step carries the fresh identity of its allocation, its call-site
descriptor and its context arguments. -/
def goChain (id : Nat) (caller : String) (code : String)
    (steps : List (Nat × String × List GoVal)) : ErrImpl :=
  steps.foldl (fun e st => errImplAs e st.1 st.2.1 st.2.2) (goNew id caller code)

/-! ## Go slice semantics for the annotation append (claim about shared state)

The value-level model above is faithful to every observable field of a
single record, but `append(e.data, as)` in Go writes through the backing
array of the receiving slice whenever spare capacity remains.  To reason
about what storage annotated records share, this section models `ErrData`
slices with explicit backing arrays: a memory is an arena of arrays (each
stored at physical length = its capacity, padded with the zero value), a
slice is an array index plus length and capacity, and `append` either
writes in place (length below capacity) or allocates a grown array.
Capacity growth follows the Go runtime for the sizes this library reaches:
the new capacity is the doubled old one when that suffices (small slices
double), and 2- and 4-element `interface{}` arrays (32 and 64 bytes) are
exact allocation size classes, so rounding changes nothing.  Annotation
entries are never appended to after being stored, so they are kept as
plain values. -/

structure GoSliceH where
  arrId : Nat
  len : Nat
  cap : Nat
deriving DecidableEq, Repr

structure GoMem where
  arrs : List (List GoVal)
  nextEid : Nat
deriving DecidableEq, Repr

def memRead (m : GoMem) (i : Nat) : List GoVal :=
  m.arrs.getD i []

def memWrite (m : GoMem) (i : Nat) (a : List GoVal) : GoMem :=
  ⟨m.arrs.set i a, m.nextEid⟩

/-- The elements a slice header makes visible. -/
def sliceElems (m : GoMem) (s : GoSliceH) : List GoVal :=
  (memRead m s.arrId).take s.len

/-- Element `j` of a slice (meaningful for `j < s.len`). -/
def sliceGet (m : GoMem) (s : GoSliceH) (j : Nat) : GoVal :=
  (memRead m s.arrId).getD j GoVal.null

def growCap (oldCap need : Nat) : Nat :=
  if need > 2 * oldCap then need else max (2 * oldCap) 1

def padTo (a : List GoVal) (c : Nat) : List GoVal :=
  a ++ List.replicate (c - a.length) GoVal.null

/-- Go `append(s, v)` on a `[]interface{}`: in place into spare capacity,
otherwise into a freshly allocated grown array. -/
def goAppendS (m : GoMem) (s : GoSliceH) (v : GoVal) : GoSliceH × GoMem :=
  if s.len < s.cap then
    (⟨s.arrId, s.len + 1, s.cap⟩, memWrite m s.arrId ((memRead m s.arrId).set s.len v))
  else
    let newCap := growCap s.cap (s.len + 1)
    (⟨m.arrs.length, s.len + 1, newCap⟩,
      ⟨m.arrs ++ [padTo ((memRead m s.arrId).take s.len ++ [v]) newCap], m.nextEid⟩)

/-- A 1-element slice literal (`ErrData{code}`): fresh array, capacity 1. -/
def goLit1 (m : GoMem) (v : GoVal) : GoSliceH × GoMem :=
  (⟨m.arrs.length, 1, 1⟩, ⟨m.arrs ++ [[v]], m.nextEid⟩)

/-- A record in the slice model: allocation identity plus `data` header. -/
structure ErrImplS where
  eid : Nat
  data : GoSliceH
deriving DecidableEq, Repr

def freshEid (m : GoMem) : Nat × GoMem :=
  (m.nextEid, ⟨m.arrs, m.nextEid + 1⟩)

/-- `New` in the slice model: `&errImpl{append(ErrData{code}, ErrData{caller(2)})}`. -/
def goNewS (m : GoMem) (caller code : String) : ErrImplS × GoMem :=
  let p0 := goLit1 m (GoVal.str code)
  let p1 := goAppendS p0.2 p0.1 (GoVal.arr [GoVal.str caller])
  let p2 := freshEid p1.2
  (⟨p2.1, p1.1⟩, p2.2)

/-- free `As` on a record of this package in the slice model: `ParseError`
returns the record itself, so the body is `append(e.data, as)` plus the
`&errImpl` allocation.  The entry slice `as` has its own backing and is
stored as a value. -/
def goAsS (m : GoMem) (e : ErrImplS) (caller : String) (reason : List GoVal) :
    ErrImplS × GoMem :=
  let p1 := goAppendS m e.data (GoVal.arr (GoVal.str caller :: reason))
  let p2 := freshEid p1.2
  (⟨p2.1, p1.1⟩, p2.2)

/-- The empty initial memory. -/
def memEmpty : GoMem := ⟨[], 0⟩

/-! ## Helper lemmas -/

/-- Appending an annotation entry never changes what `Code()` observes:
the entry goes to the back of the data sequence, the code slot is the
front. -/
theorem goCode_errImplAs (e : ErrImpl) (i : Nat) (cal : String) (r : List GoVal) :
    goCode (errImplAs e i cal r) = goCode e := by
  obtain ⟨id, data⟩ := e
  cases data with
  | nil => rfl
  | cons v rest => cases v <;> rfl

/-- Folding any sequence of annotations over a record leaves `Code()`
unchanged. -/
theorem goCode_foldAs (steps : List (Nat × String × List GoVal)) :
    ∀ e : ErrImpl,
      goCode (steps.foldl (fun e st => errImplAs e st.1 st.2.1 st.2.2) e) = goCode e := by
  induction steps with
  | nil => intro e; rfl
  | cons s ss ih => intro e; rw [List.foldl_cons, ih, goCode_errImplAs]

/-- A chain of annotations only ever appends to the data sequence. -/
theorem foldAs_data (steps : List (Nat × String × List GoVal)) :
    ∀ e : ErrImpl, ∃ t,
      (steps.foldl (fun e st => errImplAs e st.1 st.2.1 st.2.2) e).data = e.data ++ t := by
  induction steps with
  | nil => intro e; exact ⟨[], by simp⟩
  | cons s ss ih =>
    intro e
    obtain ⟨t, ht⟩ := ih (errImplAs e s.1 s.2.1 s.2.2)
    exact ⟨[GoVal.arr (GoVal.str s.2.1 :: s.2.2)] ++ t, by
      rw [List.foldl_cons, ht]; simp [errImplAs, goAsData]⟩

/-- The data sequence of a `New`-rooted annotation chain starts with the
code string. -/
theorem goChain_data (id : Nat) (caller c : String)
    (steps : List (Nat × String × List GoVal)) :
    ∃ rest, (goChain id caller c steps).data = GoVal.str c :: rest := by
  obtain ⟨t, ht⟩ := foldAs_data steps (goNew id caller c)
  exact ⟨[GoVal.arr [GoVal.str caller]] ++ t, by rw [goChain, ht]; rfl⟩

/-- On a record of this package, the free `As` takes the `ParseError`
identity path and reduces to the method body. -/
theorem goAs_record (idP idA : Nat) (calA calP : String) (e : ErrImpl)
    (reason : List GoVal) :
    goAs idP idA calA calP (some (GoError.record e)) reason
      = some (some (errImplAs e idA calA reason)) := rfl

/-! ## Claim theorems -/

/-- C1 (Code stability): `New(c).Code() == c`; a record obtained from
`New(c)` by any finite sequence of `As`/`Wrap` annotations, with any
context arguments, still has code `c`; and on a record of this package the
free `As` and `Wrap` coincide with the method form, so the statement
covers both forms. -/
theorem c1_code_stability (c : String) (id : Nat) (caller : String)
    (steps : List (Nat × String × List GoVal)) :
    goCode (goNew id caller c) = some c ∧
    goCode (goChain id caller c steps) = some c ∧
    (∀ idP idA calA calP (e : ErrImpl) (reason : List GoVal),
      goAs idP idA calA calP (some (GoError.record e)) reason
        = some (some (errImplAs e idA calA reason)) ∧
      goWrap idP idA calA calP (some (GoError.record e)) reason
        = some (some (errImplAs e idA calA reason))) := by
  refine ⟨rfl, ?_, fun _ _ _ _ _ _ => ⟨rfl, rfl⟩⟩
  rw [goChain, goCode_foldAs]
  rfl

/-- C6 (nil propagation): `As(nil, ...)`, `Wrap(nil, ...)` and
`ParseError(nil)` all return nil, for every list of context arguments. -/
theorem c6_nil_propagation (idP idA : Nat) (calA calP : String) (reason : List GoVal)
    (id : Nat) (cal : String) :
    goAs idP idA calA calP none reason = some none ∧
    goWrap idP idA calA calP none reason = some none ∧
    goParseError id cal none = none :=
  ⟨rfl, rfl, rfl⟩

/-- C7, counterexample: `Parse("[]")` yields a reachable record whose data
sequence is empty; annotating it makes the new entry land in the code
slot, so the trail stays empty instead of growing from 0 to 1. -/
theorem c7_counterexample :
    goParse 0 "w.go:1#f" "[]" = some ⟨0, []⟩ ∧
    (goTrail (errImplAs ⟨0, ([] : List GoVal)⟩ 1 "g.go:2#h" [GoVal.str "reason"])).length ≠
      (goTrail (⟨0, ([] : List GoVal)⟩ : ErrImpl)).length + 1 := by decide

/-- C7 as amended (Trail growth): for every record whose data sequence is
non-empty — all records built by `New` or `As`, and all `Parse` records
except those decoded from an empty structured sequence — annotation grows
the trail by exactly one entry, appended at the end; the free `As`/`Wrap`
on a record of this package reduce to the same method body. -/
theorem c7_trail_growth_amended (e : ErrImpl) (h : e.data ≠ []) (idA : Nat)
    (calA : String) (reason : List GoVal) (idP : Nat) (calP : String) :
    (goTrail (errImplAs e idA calA reason)).length = (goTrail e).length + 1 ∧
    goTrail (errImplAs e idA calA reason)
      = goTrail e ++ [GoVal.arr (GoVal.str calA :: reason)] ∧
    goAs idP idA calA calP (some (GoError.record e)) reason
      = some (some (errImplAs e idA calA reason)) ∧
    goWrap idP idA calA calP (some (GoError.record e)) reason
      = some (some (errImplAs e idA calA reason)) := by
  obtain ⟨id, data⟩ := e
  cases data with
  | nil => exact absurd rfl h
  | cons v rest =>
    refine ⟨?_, ?_, rfl, rfl⟩ <;> simp [goTrail, errImplAs, goAsData]

/-- C7 witness: the amended theorem applied to `New`-built record. -/
theorem c7_witness :
    (goTrail (errImplAs (goNew 0 "a.go:1#f" "c") 1 "b.go:2#g" [GoVal.str "why"])).length
      = (goTrail (goNew 0 "a.go:1#f" "c")).length + 1 :=
  (c7_trail_growth_amended (goNew 0 "a.go:1#f" "c") (by decide) 1 "b.go:2#g"
    [GoVal.str "why"] 2 "p.go:9#q").1

/-- C9 (ParseError identity and foreign fallback): a record of this
package passes through `ParseError` identically (the same allocation, not
a copy); a foreign error is re-parsed from its rendered text; for a plain
foreign error reading "boom" the resulting code is "boom", and
`New("boom").Equal(foreignErr)` is true. -/
theorem c9_parse_error_foreign (e : ErrImpl) (id1 : Nat) (cal1 : String)
    (f : ForeignErr) (fid i1 i2 : Nat) (c1 c2 : String) (nid : Nat) (ncal : String) :
    goParseError id1 cal1 (some (GoError.record e)) = some e ∧
    goParseError id1 cal1 (some (GoError.foreign f)) = goParseRaw id1 cal1 f.msg ∧
    (goParseError id1 cal1 (some (GoError.foreign ⟨fid, "boom"⟩))).map goCode
      = some (some "boom") ∧
    goEqual i1 i2 c1 c2 (some (GoError.record (goNew nid ncal "boom")))
      (some (GoError.foreign ⟨fid, "boom"⟩)) = some true := by
  refine ⟨rfl, rfl, rfl, ?_⟩
  rfl

/-- C10 (Code totality on constructed records): every record produced by
`New` or by a chain of `As`/`Wrap` over it has a non-empty data sequence
whose first element is the code string, so `Code()` returns it without
panicking; the guarantee does not extend to records `Parse` decodes from
structured text such as `"[]"` (empty data: index panic) or `"[123]"`
(non-string first element: type-assertion panic), modelled by `goCode`
returning `none` there. -/
theorem c10_code_totality (c : String) (id : Nat) (caller : String)
    (steps : List (Nat × String × List GoVal)) (pid : Nat) (pcal : String) :
    (∃ rest, (goChain id caller c steps).data = GoVal.str c :: rest) ∧
    goCode (goChain id caller c steps) = some c ∧
    (goParse pid pcal "[]").map goCode = some none ∧
    (goParse pid pcal "[123]").map goCode = some none := by
  refine ⟨goChain_data id caller c steps, ?_, rfl, rfl⟩
  rw [goChain, goCode_foldAs]
  rfl

/-- C3 (Equality is by code): `equal` answers true on identical operands,
false when one operand is nil and they are not identical, and otherwise
compares the codes of the `ParseError`-resolved operands — the
`errors.Is` tier never changes the outcome in this universe, since no
modelled error has `Unwrap`/`Is` methods.  Consequently two distinct
`New("X")` records are Equal, `New("X")`/`New("Y")` are not, and a record
is Equal to its own annotation (same code, longer trail). -/
theorem c3_equal_by_code (id1 id2 : Nat) (cal1 cal2 : String)
    (err1 err2 : Option GoError) :
    (goEqual id1 id2 cal1 cal2 err1 err2 =
      (if err1 = err2 then some true
       else
         match err1, err2 with
         | some g1, some g2 =>
           (match goParseError id1 cal1 (some g1), goParseError id2 cal2 (some g2) with
            | some r1, some r2 =>
              (match goCode r1, goCode r2 with
               | some a, some b => some (decide (a = b))
               | _, _ => none)
            | _, _ => none)
         | _, _ => some false)) ∧
    (∀ n1 n2 : Nat, ∀ cA cB : String,
      goEqual id1 id2 cal1 cal2 (some (GoError.record (goNew n1 cA "X")))
        (some (GoError.record (goNew n2 cB "X"))) = some true) ∧
    (∀ n1 n2 : Nat, ∀ cA cB : String,
      goEqual id1 id2 cal1 cal2 (some (GoError.record (goNew n1 cA "X")))
        (some (GoError.record (goNew n2 cB "Y"))) = some false) ∧
    (∀ c : String, ∀ rest : List GoVal, ∀ n1 n2 : Nat, ∀ calE : String,
      ∀ reasonE : List GoVal,
      goEqual id1 id2 cal1 cal2 (some (GoError.record ⟨n1, GoVal.str c :: rest⟩))
        (some (GoError.record (errImplAs ⟨n1, GoVal.str c :: rest⟩ n2 calE reasonE)))
        = some true) := by
  refine ⟨?_, ?_, ?_, ?_⟩
  · by_cases h : err1 = err2
    · simp [goEqual, h]
    · cases err1 with
      | none =>
        cases err2 with
        | none => exact absurd rfl h
        | some g2 => simp [goEqual, h]
      | some g1 =>
        cases err2 with
        | none => simp [goEqual, h]
        | some g2 =>
          have hg : g1 ≠ g2 := fun hh => h (by rw [hh])
          simp [goEqual, h, goStdIs, hg]
  · intro n1 n2 cA cB
    by_cases h : (some (GoError.record (goNew n1 cA "X")) : Option GoError)
        = some (GoError.record (goNew n2 cB "X"))
    · simp [goEqual, h]
    · have hg : GoError.record (goNew n1 cA "X") ≠ GoError.record (goNew n2 cB "X") :=
        fun hh => h (by rw [hh])
      simp [goEqual, h, goStdIs, hg, goParseError, goCode, goNew]
  · intro n1 n2 cA cB
    have hg : GoError.record (goNew n1 cA "X") ≠ GoError.record (goNew n2 cB "Y") := by
      intro hh
      have hd := congrArg (fun g => match g with
        | GoError.record e => e.data
        | GoError.foreign _ => []) hh
      simp [goNew] at hd
    have h : (some (GoError.record (goNew n1 cA "X")) : Option GoError)
        ≠ some (GoError.record (goNew n2 cB "Y")) := by
      intro hh
      exact hg (Option.some_injective _ hh)
    simp [goEqual, h, goStdIs, hg, goParseError, goCode, goNew]
  · intro c rest n1 n2 calE reasonE
    have hg : GoError.record (⟨n1, GoVal.str c :: rest⟩ : ErrImpl)
        ≠ GoError.record (errImplAs ⟨n1, GoVal.str c :: rest⟩ n2 calE reasonE) := by
      intro hh
      have hd := congrArg (fun g => match g with
        | GoError.record e => e.data.length
        | GoError.foreign _ => 0) hh
      simp [errImplAs, goAsData] at hd
    have h : (some (GoError.record (⟨n1, GoVal.str c :: rest⟩ : ErrImpl)) : Option GoError)
        ≠ some (GoError.record (errImplAs ⟨n1, GoVal.str c :: rest⟩ n2 calE reasonE)) := by
      intro hh
      exact hg (Option.some_injective _ hh)
    simp [goEqual, h, goStdIs, hg, goParseError, goCode, errImplAs, goAsData]

/-- C5 (Parse never fails, degrades gracefully): empty input gives nil;
non-empty input always gives a record; when the text does not begin with
the structured marker `[`, or begins with it but structured decode fails,
the record is a fresh one whose code is the whole text. -/
theorem c5_parse_never_fails (id : Nat) (cal : String) (s : String) :
    goParse id cal "" = none ∧
    (s ≠ "" → (goParse id cal s).isSome = true) ∧
    (∀ c cs, s.data = c :: cs → c ≠ '[' →
      (goParse id cal s).map goCode = some (some s)) ∧
    (∀ c cs, s.data = c :: cs → c = '[' → unmarshalData s.data = none →
      (goParse id cal s).map goCode = some (some s)) ∧
    (goParse id cal "not structured text").map goCode
      = some (some "not structured text") := by
  refine ⟨rfl, ?_, ?_, ?_, rfl⟩
  · intro hne
    obtain ⟨c, cs, hd⟩ : ∃ c cs, s.data = c :: cs := by
      cases hs : s.data with
      | nil => exact absurd (by apply String.ext; rw [hs]) hne
      | cons c cs => exact ⟨c, cs, rfl⟩
    by_cases hc : c = '['
    · subst hc
      rcases hu : unmarshalData ('[' :: cs) with _ | data
      · simp [goParse, goParseRaw, hd, hu]
      · simp [goParse, goParseRaw, hd, hu]
    · simp [goParse, goParseRaw, hd, hc]
  · intro c cs hd hc
    rw [goParse, goParseRaw, hd]
    simp [hc, goCode, goNew]
  · intro c cs hd hc hu
    rw [hd] at hu
    rw [goParse, goParseRaw, hd]
    subst hc
    simp [hu, goCode, goNew]

/-- C5 witness: the theorem applied to a plain text, to a malformed
structured text, and to a one-character text. -/
theorem c5_witness :
    (goParse 0 "w.go:1#f" "plain").map goCode = some (some "plain") ∧
    (goParse 0 "w.go:1#f" "[not json").map goCode = some (some "[not json") ∧
    (goParse 0 "w.go:1#f" "x").isSome = true :=
  ⟨(c5_parse_never_fails 0 "w.go:1#f" "plain").2.2.1 'p' "lain".data rfl (by decide),
   (c5_parse_never_fails 0 "w.go:1#f" "[not json").2.2.2.1 '[' "not json".data rfl rfl
     (by decide),
   (c5_parse_never_fails 0 "w.go:1#f" "x").2.1 (by decide)⟩

/-- C8, counterexample: `Parse("[]")` succeeds structurally and returns a
record whose trail is empty — a reachable record violating "trail length
is at least 1 at all times". -/
theorem c8_counterexample :
    (goParse 0 "w.go:1#f" "[]").map (fun e => (goTrail e).length) = some 0 := by decide

/-- C8 as amended (Trail non-emptiness): every record built by `New` or by
an annotation chain has a non-empty trail, annotation preserves trail
non-emptiness for every record with non-empty data, and every record
`Parse` builds through the fallback path has trail length exactly 1; only
records decoded from structured sequences with fewer than two elements can
have an empty trail. -/
theorem c8_trail_nonempty_amended (id : Nat) (cal c : String)
    (steps : List (Nat × String × List GoVal)) (e : ErrImpl) (reason : List GoVal)
    (idA : Nat) (calA : String) (s : String) (pid : Nat) (pcal : String) :
    1 ≤ (goTrail (goNew id cal c)).length ∧
    1 ≤ (goTrail (goChain id cal c steps)).length ∧
    (e.data ≠ [] → 1 ≤ (goTrail (errImplAs e idA calA reason)).length) ∧
    (∀ ch cs, s.data = ch :: cs → ch ≠ '[' →
      (goParse pid pcal s).map (fun r => (goTrail r).length) = some 1) ∧
    (∀ ch cs, s.data = ch :: cs → unmarshalData s.data = none →
      (goParse pid pcal s).map (fun r => (goTrail r).length) = some 1) ∧
    (∀ data, unmarshalData s.data = some data → 2 ≤ data.length → s.data ≠ [] →
      ∃ r, goParse pid pcal s = some r ∧ 1 ≤ (goTrail r).length) := by
  refine ⟨by simp [goNew, goTrail], ?_, ?_, ?_, ?_, ?_⟩
  · obtain ⟨t, ht⟩ := foldAs_data steps (goNew id cal c)
    rw [goChain, goTrail, ht]
    simp [goNew]
  · intro h
    obtain ⟨eid, data⟩ := e
    cases data with
    | nil => exact absurd rfl h
    | cons v rest => simp [goTrail, errImplAs, goAsData]
  · intro ch cs hd hc
    rw [goParse, goParseRaw, hd]
    simp [hc, goTrail, goNew]
  · intro ch cs hd hu
    rw [hd] at hu
    rw [goParse, goParseRaw, hd]
    by_cases hc : ch = '['
    · subst hc; simp [hu, goTrail, goNew]
    · simp [hc, goTrail, goNew]
  · intro data hu hlen hne
    obtain ⟨ch, cs, hd⟩ : ∃ ch cs, s.data = ch :: cs := by
      cases hs : s.data with
      | nil => exact absurd hs hne
      | cons ch cs => exact ⟨ch, cs, rfl⟩
    rw [hd] at hu
    by_cases hc : ch = '['
    · subst hc
      refine ⟨⟨pid, data⟩, ?_, ?_⟩
      · rw [goParse, goParseRaw, hd]
        simp [hu]
      · rw [goTrail]
        simp
        omega
    · refine ⟨goNew pid pcal s, ?_, by simp [goTrail, goNew]⟩
      rw [goParse, goParseRaw, hd]
      simp [hc]

/-- C8 witness: the amended theorem at a `New` record, at an annotated
record, at a plain fallback text, at a malformed structured text, and at a
well-formed two-element structured text. -/
theorem c8_witness :
    1 ≤ (goTrail (goNew 0 "a.go:1#f" "c")).length ∧
    (goParse 1 "w.go:1#f" "plain").map (fun r => (goTrail r).length) = some 1 ∧
    (goParse 1 "w.go:1#f" "[bad").map (fun r => (goTrail r).length) = some 1 ∧
    (∃ r, goParse 1 "w.go:1#f" "[\"a\",[\"w\"]]" = some r ∧ 1 ≤ (goTrail r).length) :=
  ⟨(c8_trail_nonempty_amended 0 "a.go:1#f" "c" [] (goNew 0 "a.go:1#f" "c") [] 1 "b" "x" 1
      "w.go:1#f").1,
   (c8_trail_nonempty_amended 0 "a.go:1#f" "c" [] (goNew 0 "a.go:1#f" "c") [] 1 "b" "plain" 1
      "w.go:1#f").2.2.2.1 'p' "lain".data rfl (by decide),
   (c8_trail_nonempty_amended 0 "a.go:1#f" "c" [] (goNew 0 "a.go:1#f" "c") [] 1 "b" "[bad" 1
      "w.go:1#f").2.2.2.2.1 '[' "bad".data rfl (by decide),
   (c8_trail_nonempty_amended 0 "a.go:1#f" "c" [] (goNew 0 "a.go:1#f" "c") [] 1 "b"
      "[\"a\",[\"w\"]]" 1 "w.go:1#f").2.2.2.2.2 [GoVal.str "a", GoVal.arr [GoVal.str "w"]]
      (by decide) (by decide) (by decide)⟩

/-- The C2 trace: `n := New("c")`; `r1 := As(n)` (data length 3, backing
capacity 4); `r2 := As(r1, "x")`; `r3 := As(r1, "y")`. -/
def c2new : ErrImplS × GoMem := goNewS memEmpty "f1.go:10#fn1" "c"

def c2r1 : ErrImplS × GoMem := goAsS c2new.2 c2new.1 "f2.go:20#fn2" []

def c2r2 : ErrImplS × GoMem := goAsS c2r1.2 c2r1.1 "f3.go:30#fn3" [GoVal.str "x"]

def c2r3 : ErrImplS × GoMem := goAsS c2r2.2 c2r1.1 "f4.go:40#fn4" [GoVal.str "y"]

/-- C2, evaluated at the failing input: `r1`'s own trail is unchanged and
`r2` is a fresh instance (the true parts of the claim), but `r2` shares
`r1`'s backing array, and producing the independent annotation
`r3 := As(r1, "y")` overwrites, through that shared storage, the entry
`["f3...", "x"]` that `r2 := As(r1, "x")` had appended — the record `r2`
visibly changes without being touched, refuting "sharing no mutable state
with the original". -/
theorem c2_append_aliasing :
    sliceElems c2r3.2 c2r1.1.data = sliceElems c2r1.2 c2r1.1.data ∧
    c2r2.1.eid ≠ c2r1.1.eid ∧
    c2r2.1.data.arrId = c2r1.1.data.arrId ∧
    sliceGet c2r2.2 c2r2.1.data 3 = GoVal.arr [GoVal.str "f3.go:30#fn3", GoVal.str "x"] ∧
    sliceGet c2r3.2 c2r2.1.data 3 = GoVal.arr [GoVal.str "f4.go:40#fn4", GoVal.str "y"] := by
  decide

/-- Cross-validation of the two models on the C2 trace: the elements `r1`
makes visible in the slice model are exactly the value-model data of the
same construction. -/
theorem sliceModel_agrees_on_trace :
    sliceElems c2r1.2 c2r1.1.data
      = (errImplAs (goNew 0 "f1.go:10#fn1" "c") 1 "f2.go:20#fn2" []).data := by decide

/-- The C4 counterexample record: `As(New("c"), f)` where the context
argument `f` is a value `encoding/json` cannot marshal (a func value,
rendered by `fmt` as its address). -/
def c4badRec : ErrImpl :=
  errImplAs (goNew 0 "a.go:1#f" "c") 1 "b.go:2#g" [GoVal.badVal "0x4991a0"]

/-- C4, counterexample: with a JSON-unmarshalable context argument,
`Error()` falls back to the `fmt` dump `[c [a.go:1#f] [b.go:2#g 0x4991a0]]`,
which begins with `[` but is not valid JSON, so `Parse` degrades it to a
fresh record whose code is the whole dump — not the original code "c". -/
theorem c4_counterexample :
    goCode c4badRec = some "c" ∧
    goErrorText c4badRec = "[c [a.go:1#f] [b.go:2#g 0x4991a0]]" ∧
    (goParse 7 "p.go:3#h" (goErrorText c4badRec)).map goCode
      = some (some "[c [a.go:1#f] [b.go:2#g 0x4991a0]]") ∧
    (goParse 7 "p.go:3#h" (goErrorText c4badRec)).map goCode ≠ some (some "c") := by
  decide

/-! ## Round-trip machinery for the serialization claims

`jsonSafe` characterizes the `GoVal` images of real Go values that
`encoding/json` marshals successfully: everything except `badVal`, with
numeric literals required to be valid JSON number lexemes — which the
decimal rendering of every finite Go numeric is (NaN and the infinities
are rejected by the encoder and live in `badVal`). -/

/-- Is the input empty or headed by a character that ends a JSON value in
its enclosing context (`,`, `]`, `}`)? -/
def delimHead : List Char → Bool
  | [] => true
  | c :: _ => c = ',' ∨ c = ']' ∨ c = '}'

/-- A complete, valid JSON number lexeme. -/
def numLexOk (l : List Char) : Bool :=
  lexNum l == some (l, [])

mutual

def jsonSafe : GoVal → Bool
  | .str _ => true
  | .num lit => numLexOk lit.data
  | .bool _ => true
  | .null => true
  | .arr xs => jsonSafeL xs
  | .obj kvs => jsonSafeKV kvs
  | .badVal _ => false

def jsonSafeL : List GoVal → Bool
  | [] => true
  | v :: vs => jsonSafe v && jsonSafeL vs

def jsonSafeKV : List (String × GoVal) → Bool
  | [] => true
  | (_, v) :: kvs => jsonSafe v && jsonSafeKV kvs

end

/-! `fuelNeed` is fuel sufficient for `parseVal` to parse the encoding of
a value (one unit per parser call). -/

mutual

def fuelNeed : GoVal → Nat
  | .arr xs => 1 + fuelNeedL xs
  | .obj kvs => 1 + fuelNeedKV kvs
  | _ => 1

def fuelNeedL : List GoVal → Nat
  | [] => 0
  | v :: vs => 1 + fuelNeed v + fuelNeedL vs

def fuelNeedKV : List (String × GoVal) → Nat
  | [] => 0
  | (_, v) :: kvs => 1 + fuelNeed v + fuelNeedKV kvs

end

theorem skipWs_cons (c : Char) (l : List Char) (h : isWsChar c = false) :
    skipWs (c :: l) = c :: l := by
  simp [skipWs, h]

theorem hexVal_hexDigitChar (n : Nat) (h : n < 16) :
    hexVal (hexDigitChar n) = some n := by
  interval_cases n <;> decide

/-- A valid character value is never a surrogate. -/
theorem char_not_surrogate (c : Char) : ¬(0xD800 ≤ c.toNat ∧ c.toNat ≤ 0xDFFF) := by
  have h := c.valid
  rcases h with h | ⟨h1, h2⟩
  · intro ⟨ha, _⟩
    have hx : c.val.toNat < 55296 := by
      exact_mod_cast h
    simp [Char.toNat] at ha
    omega
  · intro ⟨_, hb⟩
    have hx : 57343 < c.val.toNat := by
      exact_mod_cast h1
    simp [Char.toNat] at hb
    omega

theorem decodeCp_toNat (c : Char) : decodeCp c.toNat = c := by
  rw [decodeCp, if_neg (char_not_surrogate c), Char.ofNat_toNat]

/-- Decoded literal characters pass through the surrogate-pairing pass
unchanged. -/
theorem combineSur_map (cs : List Char) : combineSur (cs.map Char.toNat) = cs := by
  induction cs with
  | nil => rfl
  | cons c rest ih =>
    cases rest with
    | nil => simp [combineSur, decodeCp_toNat]
    | cons d rest2 =>
      rw [List.map_cons, List.map_cons, combineSur]
      rw [if_neg, decodeCp_toNat]
      · rw [← List.map_cons]
        exact congrArg (c :: ·) ih
      · intro ⟨h1, _⟩
        exact char_not_surrogate c ⟨h1.1, by omega⟩

/-- One escaped character decodes back to its code point. -/
theorem lexStrRaw_escape_cons (c : Char) (l : List Char) (ns : List Nat) (rest : List Char)
    (ih : lexStrRaw (l ++ '"' :: rest) = some (ns, rest)) :
    lexStrRaw (escapeChar c ++ (l ++ '"' :: rest)) = some (c.toNat :: ns, rest) := by
  by_cases h1 : c = '"'
  · subst h1
    rw [show escapeChar '"' = ['\\', '"'] from rfl, List.cons_append, List.cons_append,
      List.nil_append, lexStrRaw.eq_def]
    simp [ih]
  · by_cases h2 : c = '\\'
    · subst h2
      rw [show escapeChar '\\' = ['\\', '\\'] from rfl, List.cons_append, List.cons_append,
        List.nil_append, lexStrRaw.eq_def]
      simp [ih]
    · by_cases h3 : c = '\n'
      · subst h3
        rw [show escapeChar '\n' = ['\\', 'n'] from rfl, List.cons_append, List.cons_append,
          List.nil_append, lexStrRaw.eq_def]
        simp [ih]
      · by_cases h4 : c = '\r'
        · subst h4
          rw [show escapeChar '\r' = ['\\', 'r'] from rfl, List.cons_append,
            List.cons_append, List.nil_append, lexStrRaw.eq_def]
          simp [ih]
        · by_cases h5 : c = '\t'
          · subst h5
            rw [show escapeChar '\t' = ['\\', 't'] from rfl, List.cons_append,
              List.cons_append, List.nil_append, lexStrRaw.eq_def]
            simp [ih]
          · by_cases hc : c.toNat < 32
            · rw [escapeChar, if_neg h1, if_neg h2, if_neg h3, if_neg h4, if_neg h5,
                if_pos hc, List.cons_append, List.cons_append, List.cons_append,
                List.cons_append, List.cons_append, List.cons_append, List.nil_append,
                lexStrRaw.eq_def]
              have e1 : hexVal (hexDigitChar (c.toNat / 16)) = some (c.toNat / 16) :=
                hexVal_hexDigitChar _ (by omega)
              have e2 : hexVal (hexDigitChar (c.toNat % 16)) = some (c.toNat % 16) :=
                hexVal_hexDigitChar _ (by omega)
              have e3 : (((0 * 16 + 0) * 16 + c.toNat / 16) * 16 + c.toNat % 16) = c.toNat := by
                omega
              simp [show hexVal '0' = some 0 from rfl, e1, e2, ih, e3]
              omega
            · by_cases h6 : c = '<'
              · subst h6
                rw [show escapeChar '<' = ['\\', 'u', '0', '0', '3', 'c'] from rfl,
                  List.cons_append, List.cons_append, List.cons_append, List.cons_append,
                  List.cons_append, List.cons_append, List.nil_append, lexStrRaw.eq_def]
                simp [ih]
                rfl
              · by_cases h7 : c = '>'
                · subst h7
                  rw [show escapeChar '>' = ['\\', 'u', '0', '0', '3', 'e'] from rfl,
                    List.cons_append, List.cons_append, List.cons_append, List.cons_append,
                    List.cons_append, List.cons_append, List.nil_append, lexStrRaw.eq_def]
                  simp [ih]
                  rfl
                · by_cases h8 : c = '&'
                  · subst h8
                    rw [show escapeChar '&' = ['\\', 'u', '0', '0', '2', '6'] from rfl,
                      List.cons_append, List.cons_append, List.cons_append, List.cons_append,
                      List.cons_append, List.cons_append, List.nil_append, lexStrRaw.eq_def]
                    simp [ih]
                    rfl
                  · by_cases h9 : c.toNat = 0x2028
                    · rw [escapeChar, if_neg h1, if_neg h2, if_neg h3, if_neg h4, if_neg h5,
                        if_neg hc, if_neg h6, if_neg h7, if_neg h8, if_pos h9,
                        List.cons_append, List.cons_append, List.cons_append,
                        List.cons_append, List.cons_append, List.cons_append,
                        List.nil_append, lexStrRaw.eq_def]
                      simp [ih, h9, show hexVal '0' = some 0 from rfl, show hexVal '2' = some 2 from rfl, show hexVal '3' = some 3 from rfl, show hexVal '6' = some 6 from rfl, show hexVal '8' = some 8 from rfl, show hexVal '9' = some 9 from rfl, show hexVal 'c' = some 12 from rfl, show hexVal 'e' = some 14 from rfl]
                    · by_cases h10 : c.toNat = 0x2029
                      · rw [escapeChar, if_neg h1, if_neg h2, if_neg h3, if_neg h4,
                          if_neg h5, if_neg hc, if_neg h6, if_neg h7, if_neg h8,
                          if_neg h9, if_pos h10,
                          List.cons_append, List.cons_append, List.cons_append,
                          List.cons_append, List.cons_append, List.cons_append,
                          List.nil_append, lexStrRaw.eq_def]
                        simp [ih, h10, show hexVal '0' = some 0 from rfl, show hexVal '2' = some 2 from rfl, show hexVal '3' = some 3 from rfl, show hexVal '6' = some 6 from rfl, show hexVal '8' = some 8 from rfl, show hexVal '9' = some 9 from rfl, show hexVal 'c' = some 12 from rfl, show hexVal 'e' = some 14 from rfl]
                      · rw [escapeChar, if_neg h1, if_neg h2, if_neg h3, if_neg h4,
                          if_neg h5, if_neg hc, if_neg h6, if_neg h7, if_neg h8,
                          if_neg h9, if_neg h10, List.cons_append, List.nil_append,
                          lexStrRaw.eq_def]
                        simp [h1, h2, hc, ih]

/-- The encoder's escaped form of a string body decodes to its code
points. -/
theorem lexStrRaw_escape (cs : List Char) (rest : List Char) :
    lexStrRaw (cs.flatMap escapeChar ++ '"' :: rest) = some (cs.map Char.toNat, rest) := by
  induction cs with
  | nil =>
    rw [List.flatMap_nil, List.nil_append, lexStrRaw.eq_def]
    simp
  | cons c cs ih =>
    rw [List.flatMap_cons, List.append_assoc]
    exact lexStrRaw_escape_cons c _ _ rest ih

/-- Full string round trip: the encoder's quoted form of a string decodes
back to exactly that string's characters. -/
theorem parseStrBody_quote (s : String) (rest : List Char) :
    parseStrBody (s.data.flatMap escapeChar ++ '"' :: rest) = some (s.data, rest) := by
  rw [parseStrBody, lexStrRaw_escape]
  simp [combineSur_map]

/-- A delimiter character is not part of any number lexeme. -/
theorem delim_not_numchar (c : Char) (cs : List Char)
    (h : delimHead (c :: cs) = true) :
    c.isDigit = false ∧ c ≠ '.' ∧ c ≠ 'e' ∧ c ≠ 'E' ∧ c ≠ '-' := by
  simp only [delimHead, decide_eq_true_eq] at h
  rcases h with h | h | h <;> subst h <;> exact ⟨by decide, by decide, by decide, by decide,
    by decide⟩

theorem lexDigits_append (xs rest : List Char) (hrest : delimHead rest = true) :
    lexDigits (xs ++ rest) = ((lexDigits xs).1, (lexDigits xs).2 ++ rest) := by
  induction xs with
  | nil =>
    simp only [List.nil_append]
    cases rest with
    | nil => rfl
    | cons c cs =>
      have hd := (delim_not_numchar c cs hrest).1
      simp [lexDigits, hd]
  | cons x xs ih =>
    rw [List.cons_append]
    by_cases hx : x.isDigit
    · simp [lexDigits, hx, ih]
    · simp [lexDigits, hx]

theorem lexInt_extend (xs rest ip ys : List Char) (h : lexInt xs = some (ip, ys))
    (hrest : delimHead rest = true) :
    lexInt (xs ++ rest) = some (ip, ys ++ rest) := by
  cases xs with
  | nil => simp [lexInt] at h
  | cons x xs' =>
    rw [List.cons_append]
    by_cases hx : x = '0'
    · subst hx
      simp only [lexInt, reduceIte] at h ⊢
      obtain ⟨h1, h2⟩ := Prod.mk.injEq .. |>.mp (Option.some.injEq .. |>.mp h)
      subst h1
      subst h2
      rfl
    · by_cases hd : x.isDigit
      · simp [lexInt, hx, hd] at h
        obtain ⟨h1, h2⟩ := h
        subst h1
        subst h2
        simp [lexInt, hx, hd, lexDigits_append xs' rest hrest]
      · simp [lexInt, hx, hd] at h

theorem lexFrac_extend (xs rest fp ys : List Char) (h : lexFrac xs = some (fp, ys))
    (hrest : delimHead rest = true) :
    lexFrac (xs ++ rest) = some (fp, ys ++ rest) := by
  cases xs with
  | nil =>
    simp [lexFrac] at h
    obtain ⟨h1, h2⟩ := h
    subst h1
    subst h2
    cases rest with
    | nil => rfl
    | cons c cs =>
      have hdot := (delim_not_numchar c cs hrest).2.1
      simp [lexFrac, hdot]
  | cons x xs' =>
    rw [List.cons_append]
    by_cases hx : x = '.'
    · subst hx
      cases xs' with
      | nil => simp [lexFrac] at h
      | cons d xs2 =>
        by_cases hd : d.isDigit
        · simp [lexFrac, hd] at h
          obtain ⟨h1, h2⟩ := h
          subst h1
          subst h2
          simp [lexFrac, hd, lexDigits_append xs2 rest hrest]
        · simp [lexFrac, hd] at h
    · simp [lexFrac, hx] at h
      obtain ⟨h1, h2⟩ := h
      subst h1
      subst h2
      simp [lexFrac, hx]

theorem lexExp_extend (xs rest ep ys : List Char) (h : lexExp xs = some (ep, ys))
    (hrest : delimHead rest = true) :
    lexExp (xs ++ rest) = some (ep, ys ++ rest) := by
  cases xs with
  | nil =>
    simp [lexExp] at h
    obtain ⟨h1, h2⟩ := h
    subst h1
    subst h2
    cases rest with
    | nil => rfl
    | cons c cs =>
      have he := (delim_not_numchar c cs hrest).2.2.1
      have hE := (delim_not_numchar c cs hrest).2.2.2.1
      simp [lexExp, he, hE]
  | cons x xs' =>
    rw [List.cons_append]
    by_cases hx : x = 'e' ∨ x = 'E'
    · cases xs' with
      | nil => simp [lexExp, hx] at h
      | cons s xs2 =>
        by_cases hs : s = '+' ∨ s = '-'
        · cases xs2 with
          | nil => simp [lexExp, hx, hs] at h
          | cons d xs3 =>
            by_cases hd : d.isDigit
            · simp [lexExp, hx, hs, hd] at h
              obtain ⟨h1, h2⟩ := h
              subst h1
              subst h2
              rw [List.cons_append, List.cons_append]
              simp [lexExp, hx, hs, hd, lexDigits_append xs3 rest hrest]
            · simp [lexExp, hx, hs, hd] at h
        · by_cases hsd : s.isDigit
          · simp [lexExp, hx, hs, hsd] at h
            obtain ⟨h1, h2⟩ := h
            subst h1
            subst h2
            rw [List.cons_append]
            simp [lexExp, hx, hs, hsd, lexDigits_append xs2 rest hrest]
          · simp [lexExp, hx, hs, hsd] at h
    · simp [lexExp, hx] at h
      obtain ⟨h1, h2⟩ := h
      subst h1
      subst h2
      simp [lexExp, hx]

theorem lexNum_extend (xs rest lex ys : List Char) (h : lexNum xs = some (lex, ys))
    (hrest : delimHead rest = true) :
    lexNum (xs ++ rest) = some (lex, ys ++ rest) := by
  cases xs with
  | nil => simp [lexNum, lexInt] at h
  | cons x xs' =>
    rw [List.cons_append]
    by_cases hx : x = '-'
    · subst hx
      simp only [lexNum, List.head?_cons, List.tail_cons, reduceIte] at h ⊢
      cases hInt : lexInt xs' with
      | none => rw [hInt] at h; simp at h
      | some pInt =>
        obtain ⟨ip, r1⟩ := pInt
        rw [hInt] at h
        rw [lexInt_extend xs' rest ip r1 hInt hrest]
        simp only [Option.bind_eq_bind, Option.some_bind] at h ⊢
        cases hFr : lexFrac r1 with
        | none => rw [hFr] at h; simp at h
        | some pFr =>
          obtain ⟨fp, r2⟩ := pFr
          rw [hFr] at h
          rw [lexFrac_extend r1 rest fp r2 hFr hrest]
          simp only [Option.bind_eq_bind, Option.some_bind] at h ⊢
          cases hEx : lexExp r2 with
          | none => rw [hEx] at h; simp at h
          | some pEx =>
            obtain ⟨ep, r3⟩ := pEx
            rw [hEx] at h
            rw [lexExp_extend r2 rest ep r3 hEx hrest]
            simp only [Option.bind_eq_bind, Option.some_bind, Option.pure_def,
              Option.some.injEq, Prod.mk.injEq] at h ⊢
            exact ⟨h.1, by rw [h.2]⟩
    · have hh : ((x :: xs').head? = some '-') = False := by simp [hx]
      have hh2 : ((x :: (xs' ++ rest)).head? = some '-') = False := by simp [hx]
      simp only [lexNum, hh, hh2, reduceIte] at h ⊢
      rw [← List.cons_append]
      cases hInt : lexInt (x :: xs') with
      | none => rw [hInt] at h; simp at h
      | some pInt =>
        obtain ⟨ip, r1⟩ := pInt
        rw [hInt] at h
        rw [lexInt_extend (x :: xs') rest ip r1 hInt hrest]
        simp only [Option.bind_eq_bind, Option.some_bind] at h ⊢
        cases hFr : lexFrac r1 with
        | none => rw [hFr] at h; simp at h
        | some pFr =>
          obtain ⟨fp, r2⟩ := pFr
          rw [hFr] at h
          rw [lexFrac_extend r1 rest fp r2 hFr hrest]
          simp only [Option.bind_eq_bind, Option.some_bind] at h ⊢
          cases hEx : lexExp r2 with
          | none => rw [hEx] at h; simp at h
          | some pEx =>
            obtain ⟨ep, r3⟩ := pEx
            rw [hEx] at h
            rw [lexExp_extend r2 rest ep r3 hEx hrest]
            simp only [Option.bind_eq_bind, Option.some_bind, Option.pure_def,
              Option.some.injEq, Prod.mk.injEq] at h ⊢
            exact ⟨h.1, by rw [h.2]⟩

theorem lexNum_head (xs lex ys : List Char) (h : lexNum xs = some (lex, ys)) :
    ∃ c cs, xs = c :: cs ∧ (c = '-' ∨ c.isDigit = true) := by
  cases xs with
  | nil => simp [lexNum, lexInt] at h
  | cons x xs' =>
    refine ⟨x, xs', rfl, ?_⟩
    by_cases hx : x = '-'
    · exact Or.inl hx
    · right
      by_cases hz : x = '0'
      · subst hz; decide
      · by_cases hd : x.isDigit
        · exact hd
        · simp [lexNum, hx, lexInt, hz, hd] at h

/-- A decimal digit is none of the parser's structural characters. -/
theorem digit_facts (c : Char) (h : c.isDigit = true) :
    isWsChar c = false ∧ c ≠ ']' ∧ c ≠ '}' ∧ c ≠ ',' ∧ c ≠ '"' ∧ c ≠ '[' ∧ c ≠ '{' ∧
      c ≠ 't' ∧ c ≠ 'f' ∧ c ≠ 'n' := by
  refine ⟨?_, ?_, ?_, ?_, ?_, ?_, ?_, ?_, ?_, ?_⟩
  · simp only [isWsChar, decide_eq_false_iff_not]
    intro hcon
    rcases hcon with h1 | h1 | h1 | h1 <;> subst h1 <;> exact absurd h (by decide)
  all_goals intro hcon; subst hcon; exact absurd h (by decide)

/-- The first character of a marshalled value is never whitespace or a
closing/separator character. -/
theorem marshal_head (v : GoVal) (s : List Char) (hm : marshalV v = some s)
    (hs : jsonSafe v = true) :
    ∃ c t, s = c :: t ∧ isWsChar c = false ∧ c ≠ ']' ∧ c ≠ '}' ∧ c ≠ ',' := by
  cases v with
  | str s0 =>
    rw [show marshalV (GoVal.str s0) = some (quoteStr s0) from rfl] at hm
    injection hm with hm
    subst hm
    exact ⟨'"', _, rfl, by decide, by decide, by decide, by decide⟩
  | num lit =>
    rw [show marshalV (GoVal.num lit) = some lit.data from rfl] at hm
    injection hm with hm
    subst hm
    have hlex : lexNum lit.data = some (lit.data, []) := by
      have := hs
      simp only [jsonSafe, numLexOk] at this
      exact eq_of_beq this
    obtain ⟨c, cs, hd, hcd⟩ := lexNum_head _ _ _ hlex
    refine ⟨c, cs, hd, ?_, ?_, ?_, ?_⟩ <;> rcases hcd with h | h
    · subst h; decide
    · exact (digit_facts c h).1
    · subst h; decide
    · exact (digit_facts c h).2.1
    · subst h; decide
    · exact (digit_facts c h).2.2.1
    · subst h; decide
    · exact (digit_facts c h).2.2.2.1
  | bool b =>
    cases b <;> (injection hm with hm; subst hm)
    · exact ⟨'f', _, rfl, by decide, by decide, by decide, by decide⟩
    · exact ⟨'t', _, rfl, by decide, by decide, by decide, by decide⟩
  | null =>
    injection hm with hm
    subst hm
    exact ⟨'n', _, rfl, by decide, by decide, by decide, by decide⟩
  | arr xs =>
    rw [show marshalV (GoVal.arr xs) = (marshalVL xs).map (fun cs => '[' :: cs ++ [']'])
      from rfl] at hm
    cases hI : marshalVL xs with
    | none => rw [hI] at hm; exact Option.noConfusion hm
    | some inner =>
      rw [hI] at hm
      simp only [Option.map_some', Option.some.injEq] at hm
      subst hm
      exact ⟨'[', _, rfl, by decide, by decide, by decide, by decide⟩
  | obj kvs =>
    rw [show marshalV (GoVal.obj kvs) = (marshalVKV kvs).map (fun cs => '{' :: cs ++ ['}'])
      from rfl] at hm
    cases hI : marshalVKV kvs with
    | none => rw [hI] at hm; exact Option.noConfusion hm
    | some inner =>
      rw [hI] at hm
      simp only [Option.map_some', Option.some.injEq] at hm
      subst hm
      exact ⟨'{', _, rfl, by decide, by decide, by decide, by decide⟩
  | badVal r => exact absurd hm (by simp [marshalV])

mutual

theorem marshal_total : ∀ v : GoVal, jsonSafe v = true → (marshalV v).isSome = true
  | .str _, _ => rfl
  | .num _, _ => rfl
  | .bool b, _ => by cases b <;> rfl
  | .null, _ => rfl
  | .arr xs, hs => by
    have h := marshal_totalL xs (by simpa [jsonSafe] using hs)
    rw [show marshalV (GoVal.arr xs) = (marshalVL xs).map (fun cs => '[' :: cs ++ [']'])
      from rfl]
    cases hI : marshalVL xs with
    | none => rw [hI] at h; simp at h
    | some inner => rfl
  | .obj kvs, hs => by
    have h := marshal_totalKV kvs (by simpa [jsonSafe] using hs)
    rw [show marshalV (GoVal.obj kvs) = (marshalVKV kvs).map (fun cs => '{' :: cs ++ ['}'])
      from rfl]
    cases hI : marshalVKV kvs with
    | none => rw [hI] at h; simp at h
    | some inner => rfl
  | .badVal _, hs => by simp [jsonSafe] at hs

theorem marshal_totalL : ∀ xs : List GoVal, jsonSafeL xs = true → (marshalVL xs).isSome = true
  | [], _ => rfl
  | [v], hs => by
    have h1 : jsonSafe v = true := by simpa [jsonSafeL] using hs
    rw [show marshalVL [v] = marshalV v from rfl]
    exact marshal_total v h1
  | v :: w :: vs, hs => by
    have h1 : jsonSafe v = true := by
      simp only [jsonSafeL, Bool.and_eq_true] at hs
      exact hs.1
    have h2 : jsonSafeL (w :: vs) = true := by
      simp only [jsonSafeL, Bool.and_eq_true] at hs ⊢
      exact hs.2
    obtain ⟨c, hc⟩ := Option.isSome_iff_exists.mp (marshal_total v h1)
    obtain ⟨cs, hcs⟩ := Option.isSome_iff_exists.mp (marshal_totalL (w :: vs) h2)
    simp [marshalVL, hc, hcs]

theorem marshal_totalKV : ∀ kvs : List (String × GoVal), jsonSafeKV kvs = true →
    (marshalVKV kvs).isSome = true
  | [], _ => rfl
  | [(k, v)], hs => by
    have h1 : jsonSafe v = true := by simpa [jsonSafeKV] using hs
    obtain ⟨c, hc⟩ := Option.isSome_iff_exists.mp (marshal_total v h1)
    simp [marshalVKV, hc]
  | (k, v) :: (l, w) :: kvs, hs => by
    have h1 : jsonSafe v = true := by
      simp only [jsonSafeKV, Bool.and_eq_true] at hs
      exact hs.1
    have h2 : jsonSafeKV ((l, w) :: kvs) = true := by
      simp only [jsonSafeKV, Bool.and_eq_true] at hs
      simp only [jsonSafeKV, Bool.and_eq_true]
      exact hs.2
    obtain ⟨c, hc⟩ := Option.isSome_iff_exists.mp (marshal_total v h1)
    obtain ⟨cs, hcs⟩ := Option.isSome_iff_exists.mp (marshal_totalKV ((l, w) :: kvs) h2)
    simp [marshalVKV, hc, hcs]

end

mutual

theorem fuelNeed_le : ∀ (v : GoVal) (s : List Char), marshalV v = some s →
    jsonSafe v = true → fuelNeed v + 1 ≤ 2 * s.length
  | .str s0, s, hm, _ => by
    injection hm with hm
    subst hm
    simp [fuelNeed, quoteStr]
  | .num lit, s, hm, hs => by
    injection hm with hm
    subst hm
    have hlex : lexNum lit.data = some (lit.data, []) := by
      simp only [jsonSafe, numLexOk] at hs
      exact eq_of_beq hs
    obtain ⟨c, cs, hd, _⟩ := lexNum_head _ _ _ hlex
    rw [hd]
    simp [fuelNeed]
  | .bool b, s, hm, _ => by
    cases b <;> (injection hm with hm; subst hm) <;> simp [fuelNeed]
  | .null, s, hm, _ => by
    injection hm with hm
    subst hm
    simp [fuelNeed]
  | .arr xs, s, hm, hs => by
    rw [show marshalV (GoVal.arr xs) = (marshalVL xs).map (fun cs => '[' :: cs ++ [']'])
      from rfl] at hm
    cases hI : marshalVL xs with
    | none => rw [hI] at hm; exact Option.noConfusion hm
    | some inner =>
      rw [hI] at hm
      simp only [Option.map_some', Option.some.injEq] at hm
      subst hm
      cases xs with
      | nil =>
        simp [fuelNeed, fuelNeedL]
      | cons x xs' =>
        have hb := fuelNeedL_le (x :: xs') inner hI (by simpa [jsonSafe] using hs)
          (by simp)
        simp only [fuelNeed, List.length_cons, List.length_append]
        simp at hb ⊢
        omega
  | .obj kvs, s, hm, hs => by
    rw [show marshalV (GoVal.obj kvs) = (marshalVKV kvs).map (fun cs => '{' :: cs ++ ['}'])
      from rfl] at hm
    cases hI : marshalVKV kvs with
    | none => rw [hI] at hm; exact Option.noConfusion hm
    | some inner =>
      rw [hI] at hm
      simp only [Option.map_some', Option.some.injEq] at hm
      subst hm
      cases kvs with
      | nil =>
        simp [fuelNeed, fuelNeedKV]
      | cons kv kvs' =>
        have hb := fuelNeedKV_le (kv :: kvs') inner hI (by simpa [jsonSafe] using hs)
          (by simp)
        simp only [fuelNeed, List.length_cons, List.length_append]
        simp at hb ⊢
        omega
  | .badVal _, s, hm, _ => by exact absurd hm (by simp [marshalV])

theorem fuelNeedL_le : ∀ (xs : List GoVal) (s : List Char), marshalVL xs = some s →
    jsonSafeL xs = true → xs ≠ [] → fuelNeedL xs ≤ 2 * s.length + 1
  | [], _, _, _, hne => absurd rfl hne
  | [v], s, hm, hs, _ => by
    rw [show marshalVL [v] = marshalV v from rfl] at hm
    have h1 : jsonSafe v = true := by simpa [jsonSafeL] using hs
    have := fuelNeed_le v s hm h1
    simp only [fuelNeedL]
    omega
  | v :: w :: vs, s, hm, hs, _ => by
    have h1 : jsonSafe v = true := by
      simp only [jsonSafeL, Bool.and_eq_true] at hs
      exact hs.1
    have h2 : jsonSafeL (w :: vs) = true := by
      simp only [jsonSafeL, Bool.and_eq_true] at hs ⊢
      exact hs.2
    rw [show marshalVL (v :: w :: vs)
        = (do
            let c ← marshalV v
            let cs ← marshalVL (w :: vs)
            pure (c ++ ',' :: cs)) from rfl] at hm
    cases hc : marshalV v with
    | none => rw [hc] at hm; exact Option.noConfusion hm
    | some sv =>
      rw [hc] at hm
      cases hcs : marshalVL (w :: vs) with
      | none => rw [hcs] at hm; exact Option.noConfusion hm
      | some stail =>
        rw [hcs] at hm
        simp only [Option.bind_eq_bind, Option.some_bind, Option.pure_def,
          Option.some.injEq] at hm
        subst hm
        have b1 := fuelNeed_le v sv hc h1
        have b2 := fuelNeedL_le (w :: vs) stail hcs h2 (by simp)
        simp only [fuelNeedL, List.length_append, List.length_cons] at b2 ⊢
        omega

theorem fuelNeedKV_le : ∀ (kvs : List (String × GoVal)) (s : List Char),
    marshalVKV kvs = some s → jsonSafeKV kvs = true → kvs ≠ [] →
    fuelNeedKV kvs ≤ 2 * s.length + 1
  | [], _, _, _, hne => absurd rfl hne
  | [(k, v)], s, hm, hs, _ => by
    have h1 : jsonSafe v = true := by simpa [jsonSafeKV] using hs
    rw [show marshalVKV [(k, v)] = (marshalV v).map (fun c => quoteStr k ++ ':' :: c)
      from rfl] at hm
    cases hc : marshalV v with
    | none => rw [hc] at hm; exact Option.noConfusion hm
    | some sv =>
      rw [hc] at hm
      simp only [Option.map_some', Option.some.injEq] at hm
      subst hm
      have b1 := fuelNeed_le v sv hc h1
      simp only [fuelNeedKV, List.length_append, List.length_cons]
      omega
  | (k, v) :: (l, w) :: kvs, s, hm, hs, _ => by
    have h1 : jsonSafe v = true := by
      simp only [jsonSafeKV, Bool.and_eq_true] at hs
      exact hs.1
    have h2 : jsonSafeKV ((l, w) :: kvs) = true := by
      simp only [jsonSafeKV, Bool.and_eq_true] at hs ⊢
      exact hs.2
    rw [show marshalVKV ((k, v) :: (l, w) :: kvs)
        = (do
            let c ← marshalV v
            let cs ← marshalVKV ((l, w) :: kvs)
            pure (quoteStr k ++ ':' :: c ++ ',' :: cs)) from rfl] at hm
    cases hc : marshalV v with
    | none => rw [hc] at hm; exact Option.noConfusion hm
    | some sv =>
      rw [hc] at hm
      cases hcs : marshalVKV ((l, w) :: kvs) with
      | none => rw [hcs] at hm; exact Option.noConfusion hm
      | some stail =>
        rw [hcs] at hm
        simp only [Option.bind_eq_bind, Option.some_bind, Option.pure_def,
          Option.some.injEq] at hm
        subst hm
        have b1 := fuelNeed_le v sv hc h1
        have b2 := fuelNeedKV_le ((l, w) :: kvs) stail hcs h2 (by simp)
        simp only [fuelNeedKV, List.length_append, List.length_cons] at b2 ⊢
        omega

end

theorem fuelNeed_pos (v : GoVal) : 1 ≤ fuelNeed v := by
  cases v <;> simp [fuelNeed]

theorem fuelNeedL_pos (x : GoVal) (xs : List GoVal) : 1 ≤ fuelNeedL (x :: xs) := by
  simp [fuelNeedL]
  omega

theorem fuelNeedKV_pos (kv : String × GoVal) (kvs : List (String × GoVal)) :
    1 ≤ fuelNeedKV (kv :: kvs) := by
  obtain ⟨k, v⟩ := kv
  simp [fuelNeedKV]
  omega

/-- The first character of a marshalled non-empty element list. -/
theorem marshalL_head (xs : List GoVal) (s : List Char) (hm : marshalVL xs = some s)
    (hs : jsonSafeL xs = true) (hne : xs ≠ []) :
    ∃ c t, s = c :: t ∧ isWsChar c = false ∧ c ≠ ']' := by
  cases xs with
  | nil => exact absurd rfl hne
  | cons v vs =>
    cases vs with
    | nil =>
      rw [show marshalVL [v] = marshalV v from rfl] at hm
      obtain ⟨c, t, h1, h2, h3, _, _⟩ := marshal_head v s hm (by simpa [jsonSafeL] using hs)
      exact ⟨c, t, h1, h2, h3⟩
    | cons w ws =>
      rw [show marshalVL (v :: w :: ws) = (do
          let c ← marshalV v
          let cs ← marshalVL (w :: ws)
          pure (c ++ ',' :: cs)) from rfl] at hm
      cases hc : marshalV v with
      | none => rw [hc] at hm; exact Option.noConfusion hm
      | some sv =>
        rw [hc] at hm
        cases hcs : marshalVL (w :: ws) with
        | none => rw [hcs] at hm; exact Option.noConfusion hm
        | some stail =>
          rw [hcs] at hm
          simp only [Option.bind_eq_bind, Option.some_bind, Option.pure_def,
            Option.some.injEq] at hm
          subst hm
          have h1v : jsonSafe v = true := by
            simp only [jsonSafeL, Bool.and_eq_true] at hs
            exact hs.1
          obtain ⟨c, t, h1, h2, h3, _, _⟩ := marshal_head v sv hc h1v
          subst h1
          exact ⟨c, t ++ ',' :: stail, by simp, h2, h3⟩

/-- A marshalled non-empty field list starts with the quote of its first
key. -/
theorem marshalKV_head (kvs : List (String × GoVal)) (s : List Char)
    (hm : marshalVKV kvs = some s) (hne : kvs ≠ []) :
    ∃ t, s = '"' :: t := by
  cases kvs with
  | nil => exact absurd rfl hne
  | cons kv kvs' =>
    obtain ⟨k, v⟩ := kv
    cases kvs' with
    | nil =>
      rw [show marshalVKV [(k, v)] = (marshalV v).map (fun c => quoteStr k ++ ':' :: c)
        from rfl] at hm
      cases hc : marshalV v with
      | none => rw [hc] at hm; exact Option.noConfusion hm
      | some sv =>
        rw [hc] at hm
        simp only [Option.map_some', Option.some.injEq] at hm
        subst hm
        exact ⟨k.data.flatMap escapeChar ++ '"' :: ':' :: sv, by simp [quoteStr]⟩
    | cons kw kvs2 =>
      obtain ⟨l, w⟩ := kw
      rw [show marshalVKV ((k, v) :: (l, w) :: kvs2) = (do
          let c ← marshalV v
          let cs ← marshalVKV ((l, w) :: kvs2)
          pure (quoteStr k ++ ':' :: c ++ ',' :: cs)) from rfl] at hm
      cases hc : marshalV v with
      | none => rw [hc] at hm; exact Option.noConfusion hm
      | some sv =>
        rw [hc] at hm
        cases hcs : marshalVKV ((l, w) :: kvs2) with
        | none => rw [hcs] at hm; exact Option.noConfusion hm
        | some stail =>
          rw [hcs] at hm
          simp only [Option.bind_eq_bind, Option.some_bind, Option.pure_def,
            Option.some.injEq] at hm
          subst hm
          exact ⟨k.data.flatMap escapeChar ++ '"' :: ':' :: (sv ++ ',' :: stail),
            by simp [quoteStr]⟩

mutual

theorem parseVal_marshal : ∀ (v : GoVal) (s : List Char), marshalV v = some s →
    jsonSafe v = true → ∀ (fuel : Nat), fuelNeed v ≤ fuel →
    ∀ (rest : List Char), delimHead rest = true →
    parseVal fuel (s ++ rest) = some (v, rest)
  | .str s0, s, hm, _, fuel, hfuel, rest, _ => by
    injection hm with hm
    subst hm
    cases fuel with
    | zero => exact absurd hfuel (by simp [fuelNeed])
    | succ g =>
      rw [show quoteStr s0 ++ rest = '"' :: (s0.data.flatMap escapeChar ++ '"' :: rest)
        from by simp [quoteStr]]
      rw [parseVal.eq_def]
      simp [skipWs_cons '"' _ (by decide), parseStrBody_quote s0 rest]
  | .num lit, s, hm, hs, fuel, hfuel, rest, hrest => by
    injection hm with hm
    subst hm
    have hlex : lexNum lit.data = some (lit.data, []) := by
      simp only [jsonSafe, numLexOk] at hs
      exact eq_of_beq hs
    obtain ⟨c, cs, hd, hcd⟩ := lexNum_head _ _ _ hlex
    have hlex2 : lexNum (lit.data ++ rest) = some (lit.data, rest) := by
      have := lexNum_extend lit.data rest lit.data [] hlex hrest
      simpa using this
    cases fuel with
    | zero => exact absurd hfuel (by simp [fuelNeed])
    | succ g =>
      have hws : isWsChar c = false := by
        rcases hcd with h | h
        · subst h; decide
        · exact (digit_facts c h).1
      have hq : c ≠ '"' := by
        rcases hcd with h | h
        · subst h; decide
        · exact (digit_facts c h).2.2.2.2.1
      have hlb : c ≠ '[' := by
        rcases hcd with h | h
        · subst h; decide
        · exact (digit_facts c h).2.2.2.2.2.1
      have hob : c ≠ '{' := by
        rcases hcd with h | h
        · subst h; decide
        · exact (digit_facts c h).2.2.2.2.2.2.1
      have ht : c ≠ 't' := by
        rcases hcd with h | h
        · subst h; decide
        · exact (digit_facts c h).2.2.2.2.2.2.2.1
      have hf : c ≠ 'f' := by
        rcases hcd with h | h
        · subst h; decide
        · exact (digit_facts c h).2.2.2.2.2.2.2.2.1
      have hn : c ≠ 'n' := by
        rcases hcd with h | h
        · subst h; decide
        · exact (digit_facts c h).2.2.2.2.2.2.2.2.2
      have hcond : (c = '-' ∨ c.isDigit = true) = True := eq_true hcd
      have hmk : String.mk (c :: cs) = lit := by rw [← hd]
      rw [hd] at hlex2 ⊢
      simp only [List.cons_append] at hlex2 ⊢
      rw [parseVal.eq_def]
      simp [skipWs_cons c _ hws, hq, hlb, hob, ht, hf, hn, hcond, hlex2, hmk]
  | .bool b, s, hm, _, fuel, hfuel, rest, _ => by
    cases fuel with
    | zero => exact absurd hfuel (by cases b <;> simp [fuelNeed])
    | succ g =>
      cases b
      · injection hm with hm
        subst hm
        rw [show ("false".data : List Char) = ['f', 'a', 'l', 's', 'e'] from rfl,
          parseVal.eq_def]
        simp [skipWs_cons 'f' _ (by decide)]
      · injection hm with hm
        subst hm
        rw [show ("true".data : List Char) = ['t', 'r', 'u', 'e'] from rfl,
          parseVal.eq_def]
        simp [skipWs_cons 't' _ (by decide)]
  | .null, s, hm, _, fuel, hfuel, rest, _ => by
    injection hm with hm
    subst hm
    cases fuel with
    | zero => exact absurd hfuel (by simp [fuelNeed])
    | succ g =>
      rw [show ("null".data : List Char) = ['n', 'u', 'l', 'l'] from rfl, parseVal.eq_def]
      simp [skipWs_cons 'n' _ (by decide)]
  | .arr xs, s, hm, hs, fuel, hfuel, rest, _ => by
    rw [show marshalV (GoVal.arr xs) = (marshalVL xs).map (fun cs => '[' :: cs ++ [']'])
      from rfl] at hm
    cases hI : marshalVL xs with
    | none => rw [hI] at hm; exact Option.noConfusion hm
    | some inner =>
      rw [hI] at hm
      simp only [Option.map_some', Option.some.injEq] at hm
      subst hm
      cases fuel with
      | zero => exact absurd hfuel (by have := fuelNeed_pos (GoVal.arr xs); omega)
      | succ g =>
        cases xs with
        | nil =>
          have hinn : inner = [] := by
            rw [show marshalVL [] = some ([] : List Char) from rfl] at hI
            injection hI with hI
            exact hI.symm
          subst hinn
          rw [show (('[' :: ([] : List Char) ++ [']']) ++ rest : List Char)
            = '[' :: ']' :: rest from by simp]
          rw [parseVal.eq_def]
          simp [skipWs_cons '[' _ (by decide), skipWs_cons ']' _ (by decide)]
        | cons x xs' =>
          have hsL : jsonSafeL (x :: xs') = true := by simpa [jsonSafe] using hs
          obtain ⟨c0, t0, hin, hws0, hnb0⟩ := marshalL_head (x :: xs') inner hI hsL
            (by simp)
          have hfu : fuelNeedL (x :: xs') ≤ g := by
            simp only [fuelNeed] at hfuel
            omega
          have hrec := parseArrRest_marshal (x :: xs') inner hI hsL (by simp) g hfu rest
          rw [show ('[' :: inner ++ [']']) ++ rest = '[' :: (inner ++ ']' :: rest) from by
            simp]
          rw [hin] at hrec ⊢
          simp only [List.cons_append] at hrec ⊢
          rw [parseVal.eq_def]
          simp [skipWs_cons '[' _ (by decide), skipWs_cons c0 _ hws0, hnb0, hrec]
  | .obj kvs, s, hm, hs, fuel, hfuel, rest, _ => by
    rw [show marshalV (GoVal.obj kvs) = (marshalVKV kvs).map (fun cs => '{' :: cs ++ ['}'])
      from rfl] at hm
    cases hI : marshalVKV kvs with
    | none => rw [hI] at hm; exact Option.noConfusion hm
    | some inner =>
      rw [hI] at hm
      simp only [Option.map_some', Option.some.injEq] at hm
      subst hm
      cases fuel with
      | zero => exact absurd hfuel (by have := fuelNeed_pos (GoVal.obj kvs); omega)
      | succ g =>
        cases kvs with
        | nil =>
          have hinn : inner = [] := by
            rw [show marshalVKV [] = some ([] : List Char) from rfl] at hI
            injection hI with hI
            exact hI.symm
          subst hinn
          rw [show (('{' :: ([] : List Char) ++ ['}']) ++ rest : List Char)
            = '{' :: '}' :: rest from by simp]
          rw [parseVal.eq_def]
          simp [skipWs_cons '{' _ (by decide), skipWs_cons '}' _ (by decide)]
        | cons kv kvs' =>
          have hsK : jsonSafeKV (kv :: kvs') = true := by simpa [jsonSafe] using hs
          obtain ⟨t0, hin⟩ := marshalKV_head (kv :: kvs') inner hI (by simp)
          have hfu : fuelNeedKV (kv :: kvs') ≤ g := by
            simp only [fuelNeed] at hfuel
            omega
          have hrec := parseObjRest_marshal (kv :: kvs') inner hI hsK (by simp) g hfu rest
          rw [show ('{' :: inner ++ ['}']) ++ rest = '{' :: (inner ++ '}' :: rest) from by
            simp]
          rw [hin] at hrec ⊢
          simp only [List.cons_append] at hrec ⊢
          rw [parseVal.eq_def]
          simp [skipWs_cons '{' _ (by decide), skipWs_cons '"' _ (by decide), hrec]

theorem parseArrRest_marshal : ∀ (xs : List GoVal) (s : List Char), marshalVL xs = some s →
    jsonSafeL xs = true → xs ≠ [] → ∀ (fuel : Nat), fuelNeedL xs ≤ fuel →
    ∀ (rest : List Char), parseArrRest fuel (s ++ ']' :: rest) = some (xs, rest)
  | [], _, _, _, hne, _, _, _ => absurd rfl hne
  | [v], s, hm, hs, _, fuel, hfuel, rest => by
    rw [show marshalVL [v] = marshalV v from rfl] at hm
    have h1 : jsonSafe v = true := by simpa [jsonSafeL] using hs
    cases fuel with
    | zero => exact absurd hfuel (by have := fuelNeedL_pos v []; omega)
    | succ g =>
      have hfv : fuelNeed v ≤ g := by
        simp only [fuelNeedL] at hfuel
        omega
      have hv := parseVal_marshal v s hm h1 g hfv (']' :: rest) (by simp [delimHead])
      rw [parseArrRest.eq_def]
      simp [hv, skipWs_cons ']' _ (by decide), Option.bind_eq_bind, Option.some_bind]
  | v :: w :: vs, s, hm, hs, _, fuel, hfuel, rest => by
    have h1 : jsonSafe v = true := by
      simp only [jsonSafeL, Bool.and_eq_true] at hs
      exact hs.1
    have h2 : jsonSafeL (w :: vs) = true := by
      simp only [jsonSafeL, Bool.and_eq_true] at hs ⊢
      exact hs.2
    rw [show marshalVL (v :: w :: vs) = (do
        let c ← marshalV v
        let cs ← marshalVL (w :: vs)
        pure (c ++ ',' :: cs)) from rfl] at hm
    cases hc : marshalV v with
    | none => rw [hc] at hm; exact Option.noConfusion hm
    | some sv =>
      rw [hc] at hm
      cases hcs : marshalVL (w :: vs) with
      | none => rw [hcs] at hm; exact Option.noConfusion hm
      | some stail =>
        rw [hcs] at hm
        simp only [Option.bind_eq_bind, Option.some_bind, Option.pure_def,
          Option.some.injEq] at hm
        subst hm
        cases fuel with
        | zero => exact absurd hfuel (by have := fuelNeedL_pos v (w :: vs); omega)
        | succ g =>
          have hfv : fuelNeed v ≤ g := by
            simp only [fuelNeedL] at hfuel
            omega
          have hft : fuelNeedL (w :: vs) ≤ g := by
            simp only [fuelNeedL] at hfuel ⊢
            omega
          have hv := parseVal_marshal v sv hc h1 g hfv (',' :: (stail ++ ']' :: rest))
            (by simp [delimHead])
          have hrec := parseArrRest_marshal (w :: vs) stail hcs h2 (by simp) g hft rest
          rw [show (sv ++ ',' :: stail) ++ ']' :: rest
            = sv ++ (',' :: (stail ++ ']' :: rest)) from by simp]
          rw [parseArrRest.eq_def]
          simp [hv, skipWs_cons ',' _ (by decide), hrec, Option.bind_eq_bind,
            Option.some_bind]

theorem parseObjRest_marshal : ∀ (kvs : List (String × GoVal)) (s : List Char),
    marshalVKV kvs = some s → jsonSafeKV kvs = true → kvs ≠ [] →
    ∀ (fuel : Nat), fuelNeedKV kvs ≤ fuel →
    ∀ (rest : List Char), parseObjRest fuel (s ++ '}' :: rest) = some (kvs, rest)
  | [], _, _, _, hne, _, _, _ => absurd rfl hne
  | [(k, v)], s, hm, hs, _, fuel, hfuel, rest => by
    have h1 : jsonSafe v = true := by simpa [jsonSafeKV] using hs
    rw [show marshalVKV [(k, v)] = (marshalV v).map (fun c => quoteStr k ++ ':' :: c)
      from rfl] at hm
    cases hc : marshalV v with
    | none => rw [hc] at hm; exact Option.noConfusion hm
    | some sv =>
      rw [hc] at hm
      simp only [Option.map_some', Option.some.injEq] at hm
      subst hm
      cases fuel with
      | zero => exact absurd hfuel (by have := fuelNeedKV_pos (k, v) []; omega)
      | succ g =>
        have hfv : fuelNeed v ≤ g := by
          simp only [fuelNeedKV] at hfuel
          omega
        have hv := parseVal_marshal v sv hc h1 g hfv ('}' :: rest) (by simp [delimHead])
        rw [show (quoteStr k ++ ':' :: sv) ++ '}' :: rest
          = '"' :: (k.data.flatMap escapeChar ++ '"' :: (':' :: (sv ++ '}' :: rest)))
          from by simp [quoteStr]]
        rw [parseObjRest.eq_def]
        simp [skipWs_cons '"' _ (by decide),
          parseStrBody_quote k (':' :: (sv ++ '}' :: rest)),
          skipWs_cons ':' _ (by decide), hv, skipWs_cons '}' _ (by decide),
          Option.bind_eq_bind, Option.some_bind]
  | (k, v) :: (l, w) :: kvs2, s, hm, hs, _, fuel, hfuel, rest => by
    have h1 : jsonSafe v = true := by
      simp only [jsonSafeKV, Bool.and_eq_true] at hs
      exact hs.1
    have h2 : jsonSafeKV ((l, w) :: kvs2) = true := by
      simp only [jsonSafeKV, Bool.and_eq_true] at hs ⊢
      exact hs.2
    rw [show marshalVKV ((k, v) :: (l, w) :: kvs2) = (do
        let c ← marshalV v
        let cs ← marshalVKV ((l, w) :: kvs2)
        pure (quoteStr k ++ ':' :: c ++ ',' :: cs)) from rfl] at hm
    cases hc : marshalV v with
    | none => rw [hc] at hm; exact Option.noConfusion hm
    | some sv =>
      rw [hc] at hm
      cases hcs : marshalVKV ((l, w) :: kvs2) with
      | none => rw [hcs] at hm; exact Option.noConfusion hm
      | some stail =>
        rw [hcs] at hm
        simp only [Option.bind_eq_bind, Option.some_bind, Option.pure_def,
          Option.some.injEq] at hm
        subst hm
        cases fuel with
        | zero => exact absurd hfuel (by have := fuelNeedKV_pos (k, v) ((l, w) :: kvs2); omega)
        | succ g =>
          have hfv : fuelNeed v ≤ g := by
            simp only [fuelNeedKV] at hfuel
            omega
          have hft : fuelNeedKV ((l, w) :: kvs2) ≤ g := by
            simp only [fuelNeedKV] at hfuel ⊢
            omega
          have hv := parseVal_marshal v sv hc h1 g hfv (',' :: (stail ++ '}' :: rest))
            (by simp [delimHead])
          have hrec := parseObjRest_marshal ((l, w) :: kvs2) stail hcs h2 (by simp) g hft
            rest
          rw [show (quoteStr k ++ ':' :: sv ++ ',' :: stail) ++ '}' :: rest
            = '"' :: (k.data.flatMap escapeChar
                ++ '"' :: (':' :: (sv ++ (',' :: (stail ++ '}' :: rest)))))
            from by simp [quoteStr]]
          rw [parseObjRest.eq_def]
          simp [skipWs_cons '"' _ (by decide),
            parseStrBody_quote k (':' :: (sv ++ (',' :: (stail ++ '}' :: rest)))),
            skipWs_cons ':' _ (by decide), hv, skipWs_cons ',' _ (by decide), hrec,
            Option.bind_eq_bind, Option.some_bind]

end

/-- The encoder/decoder round trip on a whole `ErrData` array. -/
theorem unmarshal_marshal (data : List GoVal) (s : List Char)
    (hm : marshalData data = some s) (hs : jsonSafeL data = true) :
    unmarshalData s = some data := by
  have hmv : marshalV (GoVal.arr data) = some s := by
    rw [show marshalV (GoVal.arr data) = marshalData data from rfl]
    exact hm
  have hsv : jsonSafe (GoVal.arr data) = true := by simpa [jsonSafe] using hs
  have hb := fuelNeed_le (GoVal.arr data) s hmv hsv
  have hfuel : fuelNeed (GoVal.arr data) ≤ 2 * s.length + 2 := by omega
  have hp := parseVal_marshal (GoVal.arr data) s hmv hsv (2 * s.length + 2) hfuel []
    (by simp [delimHead])
  rw [unmarshalData]
  simp only [List.append_nil] at hp
  rw [hp]
  simp [skipWs]

theorem jsonSafeL_append (a b : List GoVal) :
    jsonSafeL (a ++ b) = (jsonSafeL a && jsonSafeL b) := by
  induction a with
  | nil => simp [jsonSafeL]
  | cons v vs ih => simp [jsonSafeL, ih, Bool.and_assoc]

/-- A `New`-rooted chain whose context arguments are all JSON-safe has
JSON-safe data. -/
theorem goChain_safe (id : Nat) (caller c : String)
    (steps : List (Nat × String × List GoVal))
    (hs : ∀ st ∈ steps, jsonSafeL st.2.2 = true) :
    jsonSafeL (goChain id caller c steps).data = true := by
  suffices h : ∀ (sts : List (Nat × String × List GoVal)) (e : ErrImpl),
      jsonSafeL e.data = true → (∀ st ∈ sts, jsonSafeL st.2.2 = true) →
      jsonSafeL (sts.foldl (fun e st => errImplAs e st.1 st.2.1 st.2.2) e).data = true by
    exact h steps (goNew id caller c) (by simp [goNew, jsonSafeL, jsonSafe]) hs
  intro sts
  induction sts with
  | nil => intro e he _; exact he
  | cons st sts2 ih =>
    intro e he hsteps
    rw [List.foldl_cons]
    apply ih
    · simp only [errImplAs, goAsData]
      rw [jsonSafeL_append]
      have hst : jsonSafeL st.2.2 = true := hsteps st (by simp)
      simp [jsonSafeL, jsonSafe, he, hst]
    · intro st2 h2
      exact hsteps st2 (by simp [h2])

/-- C4 as amended (Parse round-trip on the code): for every record built
purely through `New` and `As`/`Wrap` whose context arguments are all
JSON-marshalable (no func/chan/NaN values), parsing the rendered error
text recovers the original code. -/
theorem c4_round_trip_amended (c : String) (id : Nat) (caller : String)
    (steps : List (Nat × String × List GoVal))
    (hs : ∀ st ∈ steps, jsonSafeL st.2.2 = true) (pid : Nat) (pcal : String) :
    (goParse pid pcal (goErrorText (goChain id caller c steps))).map goCode
      = some (some c) := by
  have hsafe : jsonSafeL (goChain id caller c steps).data = true :=
    goChain_safe id caller c steps hs
  have hms : (marshalData (goChain id caller c steps).data).isSome = true := by
    rw [show marshalData (goChain id caller c steps).data
      = (marshalVL (goChain id caller c steps).data).map (fun cs => '[' :: cs ++ [']'])
      from rfl]
    have ht := marshal_totalL (goChain id caller c steps).data hsafe
    cases hI : marshalVL (goChain id caller c steps).data with
    | none => rw [hI] at ht; simp at ht
    | some inner => rfl
  obtain ⟨s, hmar⟩ := Option.isSome_iff_exists.mp hms
  have htext : goErrorText (goChain id caller c steps) = String.mk s := by
    rw [goErrorText, hmar]
  obtain ⟨inner, hsform⟩ : ∃ inner, s = '[' :: inner ++ [']'] := by
    rw [show marshalData (goChain id caller c steps).data
      = (marshalVL (goChain id caller c steps).data).map (fun cs => '[' :: cs ++ [']'])
      from rfl] at hmar
    cases hI : marshalVL (goChain id caller c steps).data with
    | none => rw [hI] at hmar; exact Option.noConfusion hmar
    | some inner =>
      rw [hI] at hmar
      simp only [Option.map_some', Option.some.injEq] at hmar
      exact ⟨inner, hmar.symm⟩
  have hun : unmarshalData s = some (goChain id caller c steps).data :=
    unmarshal_marshal _ s hmar hsafe
  rw [hsform] at hun
  obtain ⟨restd, hrd⟩ := goChain_data id caller c steps
  rw [htext, goParse, goParseRaw]
  rw [show (String.mk s).data = s from rfl, hsform]
  simp only [List.cons_append] at hun
  simp [hun, goCode, hrd]

/-- C4 witness: the amended round trip at a concrete chain carrying a
numeric and a string context argument. -/
theorem c4_witness :
    (goParse 9 "p.go:3#h" (goErrorText (goChain 0 "a.go:1#f" "c"
      [(1, "b.go:2#g", [GoVal.num "5", GoVal.str "x"])]))).map goCode
      = some (some "c") :=
  c4_round_trip_amended "c" 0 "a.go:1#f" [(1, "b.go:2#g", [GoVal.num "5", GoVal.str "x"])]
    (by decide) 9 "p.go:3#h"
